import Mathlib

/-!
Verification of the HFS upload-transfer engine (admin/src upload module).
The definitions below are a shallow embedding of the upload queue, the
accept-policy filter, and the single-transfer state machine, translated
from the TypeScript source.  The theorems settle the frozen claims about
queue FIFO order, resume handling, completion counters and policy
filtering.
-/

/-- Model of a browser `File` handle as the source uses it: declared
name, declared MIME `type`, byte size, and `webkitRelativePath`
(the empty string models an absent relative path, which is falsy in JS). -/
structure FileRec where
  name : String
  type : String
  size : Nat
  relPath : String
deriving DecidableEq, Repr

/-- JS `replaceAll('//','/')`: collapse each non-overlapping double
slash, scanning left to right. -/
def collapseSlashes : List Char → List Char
  | [] => []
  | '/' :: '/' :: r => '/' :: collapseSlashes r
  | c :: r => c :: collapseSlashes r

/-- Source `path(f)`: `(f.webkitRelativePath || f.name).replaceAll('//','/')`
(the `pre` parameter always defaults to the empty string at every call
site, so `prefix('', pre, '/')` contributes nothing). -/
def path (f : FileRec) : String :=
  ⟨collapseSlashes (if f.relPath = "" then f.name else f.relPath).toList⟩

/-- Source `ToUpload`: a file handle plus an optional comment. -/
structure ToUpload where
  file : FileRec
  comment : Option String
deriving DecidableEq, Repr

/-- One element of `uploadState.qs`: a destination (the source's `to`
field, renamed since `to` is reserved in Lean) and its ordered pending
items. -/
structure QueueEntry where
  dest : String
  entries : List ToUpload
deriving DecidableEq, Repr

/-- Source `normalizeAccept`: replace every pipe with a comma and delete
every space (`replace(/\|/g, ',').replace(/ +/g, '')`), character by
character. -/
def normalizeAccept (accept : String) : String :=
  ⟨(accept.toList.map (fun c => if c = '|' then ',' else c)).filter (fun c => c ≠ ' ')⟩

/-- JS `pattern.startsWith('.')`, at the character level. -/
def startsDot (p : String) : Bool :=
  match p.toList with
  | '.' :: _ => true
  | _ => false

/-- JS `s.endsWith(t)`: `t` is a suffix of `s` (character-level model,
a prefix test on the reversed character lists). -/
def strEndsWith (s t : String) : Bool :=
  t.toList.reverse.isPrefixOf s.toList.reverse

/-- Split a character list at commas, keeping empty pieces, as JS
`split` does. -/
def commaSplitAux (cur : List Char) : List Char → List (List Char)
  | [] => [cur.reverse]
  | c :: r =>
    if c = ',' then cur.reverse :: commaSplitAux [] r
    else commaSplitAux (c :: cur) r

/-- The source's `split(/ *[|,] */)` applied to a normalized accept
string: after `normalizeAccept` there are no spaces and no pipes left,
so the regex split is exactly a split on commas. -/
def commaSplit (s : String) : List String :=
  (commaSplitAux [] s.toList).map (fun l => ⟨l⟩)

/-- An atom of the regular expressions the source builds from an accept
pattern: a literal character or the wildcard dot. -/
inductive RAtom where
  | lit (c : Char)
  | dot
deriving DecidableEq, Repr

/-- A regex element: an atom, possibly under a Kleene star. -/
structure RElem where
  atom : RAtom
  starred : Bool
deriving DecidableEq, Repr

/-- Parser for the regex fragment the source can build from an accept
pattern (`pattern.replace('.','\\.').replace('*','.*')` fed to
`String.match`): literal characters, a backslash escape, `.`, and a
postfix `*`.  `none` models a JS `SyntaxError` (star with nothing to
repeat, dangling backslash).  Other JS metacharacters do not occur in
the patterns the theorems below quantify over and are read as literals. -/
def parseR : List Char → Option (List RElem)
  | [] => some []
  | '*' :: _ => none
  | '\\' :: [] => none
  | '\\' :: c :: '*' :: r => (parseR r).map (⟨RAtom.lit c, true⟩ :: ·)
  | '\\' :: c :: r => (parseR r).map (⟨RAtom.lit c, false⟩ :: ·)
  | '.' :: '*' :: r => (parseR r).map (⟨RAtom.dot, true⟩ :: ·)
  | '.' :: r => (parseR r).map (⟨RAtom.dot, false⟩ :: ·)
  | c :: '*' :: r => (parseR r).map (⟨RAtom.lit c, true⟩ :: ·)
  | c :: r => (parseR r).map (⟨RAtom.lit c, false⟩ :: ·)

/-- Does a regex atom match one character. -/
def atomMatch : RAtom → Char → Bool
  | RAtom.lit c, d => c = d
  | RAtom.dot, _ => true

/-- Anchored match of a regex element list at the start of `s`, allowing
leftover input (as JS `String.match` does). -/
def matchHere : List RElem → List Char → Bool
  | [], _ => true
  | ⟨_, false⟩ :: _, [] => false
  | ⟨a, false⟩ :: es, c :: s => atomMatch a c && matchHere es s
  | ⟨_, true⟩ :: es, [] => matchHere es []
  | ⟨a, true⟩ :: es, c :: s =>
      matchHere es (c :: s) || (atomMatch a c && matchHere (⟨a, true⟩ :: es) s)
termination_by es s => (s.length, es.length)

/-- Unanchored regex test, as JS `String.match(re)` truthiness: the
regex may match starting at any position of `s`. -/
def reTest (toks : List RElem) : List Char → Bool
  | [] => matchHere toks []
  | c :: r => matchHere toks (c :: r) || reTest toks r

/-- First step of the source transformation of an accept pattern:
`pattern.replace('.', '\\.')`, which escapes only the first dot. -/
def replDot : List Char → List Char
  | [] => []
  | '.' :: r => '\\' :: '.' :: r
  | c :: r => c :: replDot r

/-- Second step: `.replace('*', '.*')`, replacing only the first star. -/
def replStar : List Char → List Char
  | [] => []
  | '*' :: r => '.' :: '*' :: r
  | c :: r => c :: replStar r

/-- The regex source text the code builds from one accept pattern. -/
def toRegex (p : List Char) : List Char :=
  replStar (replDot p)

/-- Test of one accept pattern against a file, as the source's `some`
callback does it: a pattern starting with `.` is an `endsWith` test on
the file name, anything else is an unanchored regex match against the
declared MIME type.  `none` models a thrown `SyntaxError`. -/
def patRes (p : String) (f : FileRec) : Option Bool :=
  if startsDot p then some (strEndsWith f.name p)
  else
    match parseR (toRegex p.toList) with
    | none => none
    | some toks => some (reTest toks f.type.toList)

/-- Left-to-right `Array.some` over the patterns, short-circuiting on the
first `true` and propagating a thrown exception (`none`). -/
def acceptSome : List String → FileRec → Option Bool
  | [], _ => some false
  | p :: ps, f =>
    match patRes p f with
    | none => none
    | some true => some true
    | some false => acceptSome ps f

/-- Source `simulateBrowserAccept`: `true` when no accept policy is set
(absent or empty string, both falsy), otherwise test the file against the
comma/pipe separated patterns.  After `normalizeAccept` the string has no
spaces and no pipes, so the `split(/ *[|,] */)` of the source is a plain
split on commas.  `none` models an exception escaping the call. -/
def simulateBrowserAccept (accept : Option String) (f : FileRec) : Option Bool :=
  match accept with
  | none => some true
  | some a =>
    if a = "" then some true
    else acceptSome (commaSplit (normalizeAccept a)) f

/-- Source `_.uniqBy(entries, x => path(x.file))`: keep the first item
for each relative path. -/
def dedupByPathAux (seen : List String) : List ToUpload → List ToUpload
  | [] => []
  | x :: r =>
    if path x.file ∈ seen then dedupByPathAux seen r
    else x :: dedupByPathAux (path x.file :: seen) r

/-- Deduplicate a batch by relative path, keeping first occurrences. -/
def dedupByPath (l : List ToUpload) : List ToUpload :=
  dedupByPathAux [] l

/-- Source `_.find(uploadState.qs, { to })`: first entry for a destination. -/
def findQ (qs : List QueueEntry) (dest : String) : Option QueueEntry :=
  qs.find? (fun q => q.dest == dest)

/-- Append a batch to the queue as the source does: push the items that
are missing by relative path onto the first entry with the same
destination (`_.differenceBy(entries, q.entries, x => path(x.file))`),
or push a brand-new entry at the end of the queue. -/
def addToQs : List QueueEntry → String → List ToUpload → List QueueEntry
  | [], dest, es => [⟨dest, es⟩]
  | q :: rest, dest, es =>
    if q.dest = dest then
      ⟨q.dest, q.entries ++
        es.filter (fun x => path x.file ∉ q.entries.map (fun y => path y.file))⟩ :: rest
    else q :: addToQs rest dest es

/-- Source `enqueue(entries)` as a pure function on the queue: filter the
batch through the accept policy (if any test throws, lodash `_.remove`
propagates before mutating, so nothing changes and no notice fires),
report one rejection notice when anything was filtered, deduplicate the
batch by relative path, and append the remainder to the destination's
entry.  Returns the new queue and whether the rejection notice fired. -/
def enqueue (accept : Option String) (qs : List QueueEntry) (dest : String)
    (items : List ToUpload) : List QueueEntry × Bool :=
  if items.any (fun x => (simulateBrowserAccept accept x.file).isNone) then (qs, false)
  else
    let rejected := items.any (fun x => simulateBrowserAccept accept x.file = some false)
    let kept := items.filter (fun x => simulateBrowserAccept accept x.file = some true)
    let entries := dedupByPath kept
    if entries.isEmpty then (qs, rejected)
    else (addToQs qs dest entries, rejected)

/-- Modelled from the spec: the dedicated "conflict" status (file already
exists, skip requested).  The constant is imported from `./misc` outside
the sources at hand; its name denotes the standard HTTP 409 Conflict
code, which is the value used by the server side of the protocol. -/
def HTTP_CONFLICT : Nat := 409

/-- Modelled from the spec: the dedicated "payload too large" status,
the standard HTTP 413 code (constant imported from `./misc`). -/
def HTTP_PAYLOAD_TOO_LARGE : Nat := 413

/-- The transfer-local state of one `startUpload` call: the item and
destination, the `resume` offset, the `lastProgress` accumulator of the
progress handler, and the module-level `overrideStatus` (reset to 0 at
the start of every transfer, written by `upload.status` push events). -/
structure TransferCtx where
  item : ToUpload
  dest : String
  resume : Nat
  lastProgress : Nat
  overrideStatus : Nat
deriving DecidableEq, Repr

/-- The byte range of the file sent as the body of a transfer's request:
`toUpload.file.slice(resume)`, i.e. bytes `[resume, size)`. -/
def requestRange (c : TransferCtx) : Nat × Nat :=
  (c.resume, c.item.file.size)

/-- The push-notification handler's closure.  `subscribeNotifications`
registers the handler only when `notificationChannel` is empty, so only
the first `startUpload` of a queue cycle registers it; the handler then
closes over that call's `toUpload` and `to` locals (`item`, `dest`
here).  Its `resuming = true` assignment writes the registering call's
local flag, which suppresses `next()` only while that same call also
owns the in-flight request — `isCurrent` records exactly that. -/
structure Handler where
  item : ToUpload
  dest : String
  isCurrent : Bool
deriving DecidableEq, Repr

/-- The shared `uploadState` (plus the module-level transfer handle and
the estimator's `bytesSent` counter).  `transfer` models `req` together
with `uploadState.uploading` (the active item is `transfer.map (·.item)`);
`partialBytes` is the source's `partial` field; `progress` is the
published fraction; `accept` is the destination's accept policy from
`state.props`; `handler` is the push-channel subscription (`none` models
an empty `notificationChannel`). -/
structure Machine where
  done : Nat
  doneByte : Nat
  errors : Nat
  qs : List QueueEntry
  paused : Bool
  transfer : Option TransferCtx
  partialBytes : Nat
  progress : ℚ
  skipExisting : Bool
  bytesSent : ℤ
  accept : Option String
  handler : Option Handler
deriving DecidableEq, Repr

/-- User-visible side effects of one event: whether an error alert was
shown (`alertDialog` in `error`), whether the batch-rejection notice
fired (`alertDialog` in `enqueue`), and whether a resume confirmation
dialog was presented. -/
structure Obs where
  errMsg : Bool := false
  rejected : Bool := false
  confirm : Bool := false
deriving DecidableEq, Repr

/-- The initial upload state: empty queue, nothing active, all counters
zero, not paused. -/
def initM (accept : Option String) : Machine :=
  { done := 0, doneByte := 0, errors := 0, qs := [], paused := false,
    transfer := none, partialBytes := 0, progress := 0, skipExisting := false,
    bytesSent := 0, accept := accept, handler := none }

/-- Source `startUpload(toUpload, to, resume)` up to issuing the request:
set `uploading`, reset `overrideStatus` to 0 and the progress handler's
`lastProgress` to 0, run `subscribeNotifications` — which registers the
push handler with this call's closure only when no channel exists, and
otherwise leaves the previously registered closure in place, now no
longer owning the in-flight request — and send the body
`file.slice(resume)`.  `partial` and `progress` are not touched here
(only `next` resets them). -/
def startUpload (m : Machine) (item : ToUpload) (dest : String) (resume : Nat) : Machine :=
  { m with transfer := some ⟨item, dest, resume, 0, 0⟩,
           handler := match m.handler with
             | none => some ⟨item, dest, true⟩
             | some h => some { h with isCurrent := false } }

/-- Source `error(status)`: always increment `errors`; show the alert
only when the previous value was 0 (`if (uploadState.errors++) return`). -/
def error (m : Machine) : Machine × Bool :=
  ({ m with errors := m.errors + 1 }, m.errors = 0)

/-- Source `done()`: count the file and its full size. -/
def doneUpload (m : Machine) (size : Nat) : Machine :=
  { m with done := m.done + 1, doneByte := m.doneByte + size }

/-- Source `next()`: clear the active transfer and `partial`, shift the
completed item off the head entry, and drop the head entry when that
empties it (`qs[0].entries.shift(); if (!qs[0].entries.length) qs.shift()`).
The drain-time refresh/summary side effects are UI-only and not modelled. -/
def next (m : Machine) : Machine :=
  let m1 := { m with transfer := none, partialBytes := 0 }
  match m1.qs with
  | [] => m1
  | q :: rest =>
    let es := q.entries.tail
    { m1 with qs := if es = [] then rest else ⟨q.dest, es⟩ :: rest }

/-- The status the completion handler acts on:
`overrideStatus || req.status`. -/
def effStatus (c : TransferCtx) (reqStatus : Nat) : Nat :=
  if c.overrideStatus ≠ 0 then c.overrideStatus else reqStatus

/-- Source `req.onloadend` when the request finishes with transport
status `reqStatus`: with the effective status, do nothing for 0
(user-aborted) and for the conflict status, count an error for ≥ 400 and
a success otherwise; advance the queue unless this completion is the
abort half of a resume handoff (`if (!resuming) next()`).  Returns also
whether the error alert was shown. -/
def finishRequest (m : Machine) (reqStatus : Nat) (resuming : Bool) : Machine × Bool :=
  match m.transfer with
  | none => (m, false)
  | some c =>
    let s := effStatus c reqStatus
    let r :=
      if s ≠ 0 ∧ s ≠ HTTP_CONFLICT then
        if 400 ≤ s then error m else (doneUpload m c.item.file.size, false)
      else (m, false)
    (if resuming then r.1 else next r.1, r.2)

/-- Source `req.upload.onprogress`: with `loaded` bytes of the current
request's body sent (the body is `file.slice(resume)`, so the transport's
`total` is `size - resume`), publish `partial = loaded + resume` and
`progress = partial / (total + resume)`, and add the delta since the last
progress event to the estimator's `bytesSent` counter. -/
def onProgress (m : Machine) (loaded : Nat) : Machine :=
  match m.transfer with
  | none => m
  | some c =>
    let total := c.item.file.size - c.resume
    { m with
      partialBytes := loaded + c.resume,
      progress := ((loaded + c.resume : Nat) : ℚ) / ((total + c.resume : Nat) : ℚ),
      bytesSent := m.bytesSent + ((loaded : ℤ) - (c.lastProgress : ℤ)),
      transfer := some { c with lastProgress := loaded } }

/-- The `subscribe(uploadState, ...)` watcher: when the head queue entry
is missing or empty, renew the notification channel (clear the handler
and close the source); otherwise, when nothing is uploading and the
queue is not paused, start the first item of the head entry (resume
offset 0). -/
def sched (m : Machine) : Machine :=
  match m.qs with
  | ⟨dest, e :: _⟩ :: _ =>
    if m.transfer = none ∧ m.paused = false then startUpload m e dest 0 else m
  | _ => { m with handler := none }

/-- The queue-delete action on a non-active item: `_.pull(q.entries, f)`
on `qs[idx]`, then `qs.splice(idx, 1)` when that empties the entry. -/
def removeAt : List QueueEntry → Nat → ToUpload → List QueueEntry
  | [], _, _ => []
  | q :: rest, 0, it =>
    let es := q.entries.filter (fun x => x ≠ it)
    if es = [] then rest else ⟨q.dest, es⟩ :: rest
  | q :: rest, i + 1, it => q :: removeAt rest i it

/-- The external events driving the engine: enqueuing a batch, transport
progress and completion callbacks, a network error (the transport fires
`onerror` and then `onloadend` with status 0), the two push-channel
events (`upload.resumable` with the user's answer to the confirmation,
and `upload.status`), and the UI intents (pause toggle, queue clear,
queue-item delete). -/
inductive Ev where
  | enqueue (dest : String) (items : List ToUpload)
  | progress (loaded : Nat)
  | loadend (reqStatus : Nat)
  | netError
  | offer (size : Nat) (accepted : Bool)
  | statusOverride (code : Nat)
  | togglePause
  | clearQ
  | removeItem (idx : Nat) (item : ToUpload)
deriving DecidableEq, Repr

/-- One synchronous reaction of the engine to an event, followed by the
`subscribe` watcher pass (valtio batches the subscription callback after
the mutation, so the watcher observes the fully updated state).  Returns
the new state and the user-visible side effects.

Event by event, from the source:
enqueue appends through the accept filter; progress and loadend are the
transport callbacks of the active request; netError is `req.onerror`
(`error(0)`) followed by the transport's loadend with status 0;
offer is an `upload.resumable` push for the active item, handled by the
registered closure: ignored with no transfer, no subscription, a falsy
size, or a size above the handler's captured file's size; otherwise a
confirmation is presented, and acceptance aborts the current request —
the handler's `resuming = true` suppresses `next()` only when the
registering call still owns the in-flight request — and restarts the
handler's captured item at the offered offset;
statusOverride is an `upload.status` push: it records the
override and, for an error class, aborts so that the completion is
reported with the overridden status; togglePause flips `paused`;
clearQ empties the queue and aborts the active request; removeItem is
the queue-delete action (equivalent to abort for the active item). -/
def step (m : Machine) : Ev → Machine × Obs
  | .enqueue dest items =>
    let r := enqueue m.accept m.qs dest items
    (sched { m with qs := r.1 }, { rejected := r.2 })
  | .progress loaded =>
    match m.transfer with
    | none => (m, {})
    | some _ => (sched (onProgress m loaded), {})
  | .loadend reqStatus =>
    match m.transfer with
    | none => (m, {})
    | some _ =>
      let r := finishRequest m reqStatus false
      (sched r.1, { errMsg := r.2 })
  | .netError =>
    match m.transfer with
    | none => (m, {})
    | some _ =>
      let r1 := error m
      let r2 := finishRequest r1.1 0 false
      (sched r2.1, { errMsg := r1.2 || r2.2 })
  | .offer size accepted =>
    match m.transfer with
    | none => (m, {})
    | some _ =>
      match m.handler with
      | none => (m, {})
      | some h =>
        if size = 0 ∨ h.item.file.size < size then (m, {})
        else if accepted then
          let r := finishRequest m 0 h.isCurrent
          (sched (startUpload r.1 h.item h.dest size), { errMsg := r.2, confirm := true })
        else (m, { confirm := true })
  | .statusOverride code =>
    match m.transfer with
    | none => (m, {})
    | some c =>
      let m1 := { m with transfer := some { c with overrideStatus := code } }
      if 400 ≤ code then
        let r := finishRequest m1 0 false
        (sched r.1, { errMsg := r.2 })
      else (m1, {})
  | .togglePause => (sched { m with paused := !m.paused }, {})
  | .clearQ =>
    let r := finishRequest { m with qs := [] } 0 false
    (sched r.1, { errMsg := r.2 })
  | .removeItem idx item =>
    match m.transfer with
    | some c =>
      if c.item = item then
        let r := finishRequest m 0 false
        (sched r.1, { errMsg := r.2 })
      else (sched { m with qs := removeAt m.qs idx item }, {})
    | none => (sched { m with qs := removeAt m.qs idx item }, {})

/-- Run a trace of events. -/
def run (m : Machine) : List Ev → Machine
  | [] => m
  | e :: t => run (step m e).1 t

/-- The states the engine can reach from the initial state under a given
accept policy. -/
inductive Reach (accept : Option String) : Machine → Prop where
  | init : Reach accept (initM accept)
  | tail (m : Machine) (ev : Ev) : Reach accept m → Reach accept (step m ev).1

/-- What `next` does to the queue alone: shift the head entry's first
item, pruning the head entry if that empties it. -/
def advanceQ : List QueueEntry → List QueueEntry
  | [] => []
  | q :: rest =>
    let es := q.entries.tail
    if es = [] then rest else ⟨q.dest, es⟩ :: rest

theorem next_qs (m : Machine) : (next m).qs = advanceQ m.qs := by
  cases h : m.qs <;> simp [next, advanceQ, h]

theorem next_done (m : Machine) : (next m).done = m.done := by
  cases h : m.qs <;> simp [next, h]

theorem next_doneByte (m : Machine) : (next m).doneByte = m.doneByte := by
  cases h : m.qs <;> simp [next, h]

theorem next_errors (m : Machine) : (next m).errors = m.errors := by
  cases h : m.qs <;> simp [next, h]

theorem next_transfer (m : Machine) : (next m).transfer = none := by
  cases h : m.qs <;> simp [next, h]

/-- The watcher leaves the state alone, renews the channel (head entry
missing or empty), or starts the head item of the head entry with
resume offset 0. -/
theorem sched_cases (m : Machine) :
    sched m = m ∨ sched m = { m with handler := none } ∨
    ∃ e dest rest es, m.qs = ⟨dest, e :: es⟩ :: rest ∧ m.transfer = none ∧
      m.paused = false ∧ sched m = startUpload m e dest 0 := by
  unfold sched
  split
  · rename_i dest e tail rest heq
    split
    · rename_i hcond
      exact Or.inr (Or.inr ⟨e, dest, rest, tail, heq, hcond.1, hcond.2, rfl⟩)
    · exact Or.inl rfl
  · exact Or.inr (Or.inl rfl)

theorem sched_qs (m : Machine) : (sched m).qs = m.qs := by
  rcases sched_cases m with h | h | ⟨e, d, r, es, -, -, -, h⟩ <;> simp [h, startUpload]

theorem sched_done (m : Machine) : (sched m).done = m.done := by
  rcases sched_cases m with h | h | ⟨e, d, r, es, -, -, -, h⟩ <;> simp [h, startUpload]

theorem sched_doneByte (m : Machine) : (sched m).doneByte = m.doneByte := by
  rcases sched_cases m with h | h | ⟨e, d, r, es, -, -, -, h⟩ <;> simp [h, startUpload]

theorem sched_errors (m : Machine) : (sched m).errors = m.errors := by
  rcases sched_cases m with h | h | ⟨e, d, r, es, -, -, -, h⟩ <;> simp [h, startUpload]

theorem sched_bytesSent (m : Machine) : (sched m).bytesSent = m.bytesSent := by
  rcases sched_cases m with h | h | ⟨e, d, r, es, -, -, -, h⟩ <;> simp [h, startUpload]

theorem sched_partialBytes (m : Machine) : (sched m).partialBytes = m.partialBytes := by
  rcases sched_cases m with h | h | ⟨e, d, r, es, -, -, -, h⟩ <;> simp [h, startUpload]

theorem sched_progress (m : Machine) : (sched m).progress = m.progress := by
  rcases sched_cases m with h | h | ⟨e, d, r, es, -, -, -, h⟩ <;> simp [h, startUpload]

theorem sched_transfer_of_some (m : Machine) (c : TransferCtx)
    (h : m.transfer = some c) : (sched m).transfer = some c := by
  rcases sched_cases m with hs | hs | ⟨e, d, r, es, -, ht, -, -⟩
  · rwa [hs]
  · rwa [hs]
  · rw [ht] at h
    cases h

/-- Sample file used by the concrete witnesses below. -/
def fileA : FileRec := ⟨"a.txt", "text/plain", 10, ""⟩

/-- Second sample file, enqueued behind `fileA` in the FIFO witness. -/
def fileB : FileRec := ⟨"b.txt", "text/plain", 20, ""⟩

/-- Sample pending item. -/
def itemA : ToUpload := ⟨fileA, none⟩

/-- Second sample pending item. -/
def itemB : ToUpload := ⟨fileB, none⟩

/-- A reachable state in which `itemA` is the active transfer. -/
def mA : Machine := run (initM none) [Ev.enqueue "/d" [itemA]]

/-- C2.  When the active transfer's request completes with the dedicated
conflict status (skip-existing), none of the counters `done`, `doneByte`,
`errors` changes, and the queue advances past that item: the head entry
loses its first element (and is pruned if emptied) and the active
transfer is cleared before the watcher starts the next entry. -/
theorem conflict_completion_no_counters_queue_advances
    (m : Machine) (c : TransferCtx) (s : Nat)
    (hc : m.transfer = some c) (hs : effStatus c s = HTTP_CONFLICT) :
    (step m (Ev.loadend s)).1.done = m.done ∧
    (step m (Ev.loadend s)).1.doneByte = m.doneByte ∧
    (step m (Ev.loadend s)).1.errors = m.errors ∧
    (step m (Ev.loadend s)).1.qs = advanceQ m.qs ∧
    (step m (Ev.loadend s)).2.errMsg = false := by
  have hfn : finishRequest m s false = (next m, false) := by
    simp [finishRequest, hc, hs]
  have h1 : (step m (Ev.loadend s)).1 = sched (next m) := by
    simp [step, hc, hfn]
  have h2 : (step m (Ev.loadend s)).2 = { errMsg := false } := by
    simp [step, hc, hfn]
  rw [h1, h2, sched_done, sched_doneByte, sched_errors, sched_qs,
    next_done, next_doneByte, next_errors, next_qs]
  exact ⟨rfl, rfl, rfl, rfl, rfl⟩

/-- Witness for C2 at a concrete reachable state. -/
theorem conflict_completion_no_counters_queue_advances_witness :
    (step mA (Ev.loadend 409)).1.done = mA.done ∧
    (step mA (Ev.loadend 409)).1.doneByte = mA.doneByte ∧
    (step mA (Ev.loadend 409)).1.errors = mA.errors ∧
    (step mA (Ev.loadend 409)).1.qs = advanceQ mA.qs ∧
    (step mA (Ev.loadend 409)).2.errMsg = false :=
  conflict_completion_no_counters_queue_advances mA ⟨itemA, "/d", 0, 0, 0⟩ 409
    (by decide) (by decide)

/-- C3 (amended).  A completion whose effective status is ≥ 400 and is
not the dedicated conflict status increments `errors`; the user-visible
error alert is shown exactly when this is the first error of the batch
(`errors` was 0 before the increment); later errors are counted silently;
success counters do not move and the queue advances. -/
theorem error_completion_counts_first_message
    (m : Machine) (c : TransferCtx) (s : Nat)
    (hc : m.transfer = some c) (h4 : 400 ≤ effStatus c s)
    (hne : effStatus c s ≠ HTTP_CONFLICT) :
    (step m (Ev.loadend s)).1.errors = m.errors + 1 ∧
    ((step m (Ev.loadend s)).2.errMsg = true ↔ m.errors = 0) ∧
    (step m (Ev.loadend s)).1.done = m.done ∧
    (step m (Ev.loadend s)).1.doneByte = m.doneByte ∧
    (step m (Ev.loadend s)).1.qs = advanceQ m.qs := by
  have hz : effStatus c s ≠ 0 := by omega
  have hfn : finishRequest m s false =
      (next { m with errors := m.errors + 1 }, decide (m.errors = 0)) := by
    simp [finishRequest, hc, hz, hne, h4, error]
  have h1 : (step m (Ev.loadend s)).1 = sched (next { m with errors := m.errors + 1 }) := by
    simp [step, hc, hfn]
  have h2 : (step m (Ev.loadend s)).2 = { errMsg := decide (m.errors = 0) } := by
    simp [step, hc, hfn]
  rw [h1, h2, sched_done, sched_doneByte, sched_errors, sched_qs,
    next_done, next_doneByte, next_errors, next_qs]
  refine ⟨rfl, by simp, rfl, rfl, rfl⟩

/-- Witness for C3's amended theorem: a payload-too-large completion at a
concrete reachable state. -/
theorem error_completion_counts_first_message_witness :
    (step mA (Ev.loadend 413)).1.errors = mA.errors + 1 ∧
    ((step mA (Ev.loadend 413)).2.errMsg = true ↔ mA.errors = 0) ∧
    (step mA (Ev.loadend 413)).1.done = mA.done ∧
    (step mA (Ev.loadend 413)).1.doneByte = mA.doneByte ∧
    (step mA (Ev.loadend 413)).1.qs = advanceQ mA.qs :=
  error_completion_counts_first_message mA ⟨itemA, "/d", 0, 0, 0⟩ 413
    (by decide) (by decide) (by decide)

/-- Counterexample to C3 as frozen: the dedicated conflict status 409 is
≥ 400, yet a transfer completing with it does not increment `errors`
(the completion handler excludes `HTTP_CONFLICT` before the ≥ 400 test). -/
theorem error_completion_counterexample :
    mA.transfer ≠ none ∧ 400 ≤ (409 : Nat) ∧
    (step mA (Ev.loadend 409)).1.errors = mA.errors :=
  ⟨by decide, by decide, by decide⟩

/-- C7.  While a transfer with resume offset `R` is in flight, a
transport report of `loaded` bytes sent for the current request publishes
`partialBytes = loaded + R` and `progress = partialBytes / fileSize`, and
adds the delta since the previous report to the estimator's byte
counter. -/
theorem progress_publishes_resume_adjusted
    (m : Machine) (c : TransferCtx) (loaded : Nat)
    (hc : m.transfer = some c) (hr : c.resume ≤ c.item.file.size) :
    (step m (Ev.progress loaded)).1.partialBytes = loaded + c.resume ∧
    (step m (Ev.progress loaded)).1.progress =
      ((loaded + c.resume : Nat) : ℚ) / ((c.item.file.size : Nat) : ℚ) ∧
    (step m (Ev.progress loaded)).1.bytesSent =
      m.bytesSent + ((loaded : ℤ) - (c.lastProgress : ℤ)) := by
  have htot : c.item.file.size - c.resume + c.resume = c.item.file.size :=
    Nat.sub_add_cancel hr
  have hstep : (step m (Ev.progress loaded)).1 = sched (onProgress m loaded) := by
    simp [step, hc]
  rw [hstep, sched_partialBytes, sched_progress, sched_bytesSent]
  simp [onProgress, hc, htot]

/-- Witness for C7 at a concrete reachable state. -/
theorem progress_publishes_resume_adjusted_witness :
    (step mA (Ev.progress 4)).1.partialBytes = 4 + 0 ∧
    (step mA (Ev.progress 4)).1.progress = ((4 + 0 : Nat) : ℚ) / ((10 : Nat) : ℚ) ∧
    (step mA (Ev.progress 4)).1.bytesSent = mA.bytesSent + ((4 : ℤ) - ((0 : Nat) : ℤ)) :=
  progress_publishes_resume_adjusted mA ⟨itemA, "/d", 0, 0, 0⟩ 4 (by decide) (by decide)

/-- C8 (amended).  A pushed resume offer is compared against the file of
the transfer that registered the push handler — the first transfer of
the queue cycle, whose `toUpload` the handler closes over — not against
the active file: whenever the reported size exceeds that captured file's
size, the offer is ignored entirely (no confirmation dialog, no abort,
no change to any component of the upload state).  In particular, while
the subscribing transfer is itself the one in flight, an offer exceeding
the active file's size is ignored as the claim states. -/
theorem stale_offer_ignored
    (m : Machine) (c : TransferCtx) (h : Handler) (size : Nat) (accepted : Bool)
    (hc : m.transfer = some c) (hh : m.handler = some h)
    (hgt : h.item.file.size < size) :
    step m (Ev.offer size accepted) = (m, {}) := by
  simp [step, hc, hh, hgt]

/-- Witness for C8: an offer of 11 bytes while the 10-byte subscribing
file is itself the active transfer, at a concrete reachable state. -/
theorem stale_offer_ignored_witness :
    step mA (Ev.offer 11 true) = (mA, {}) :=
  stale_offer_ignored mA ⟨itemA, "/d", 0, 0, 0⟩ ⟨itemA, "/d", true⟩ 11 true
    (by decide) (by decide) (by decide)

/-- A 5-byte file enqueued behind `fileA` in the same cycle. -/
def fileSm : FileRec := ⟨"s.txt", "text/plain", 5, ""⟩

/-- The pending item for `fileSm`. -/
def itemSm : ToUpload := ⟨fileSm, none⟩

/-- A reachable state in which `itemSm` (5 bytes) is the active transfer
while the push handler still closes over `itemA` (10 bytes), the first
transfer of the cycle. -/
def mStale : Machine :=
  run (initM none) [Ev.enqueue "/d" [itemA, itemSm], Ev.loadend 200]

/-- Counterexample to C8 as frozen: with the 5-byte `itemSm` active and
the handler captured by the completed 10-byte first transfer, an offer
of 8 bytes — strictly larger than the active file — is not ignored: the
size check uses the handler's captured file, a confirmation dialog is
presented, and acceptance changes the upload state (the in-flight
request is aborted and the handler's item restarts). -/
theorem stale_offer_counterexample :
    mStale.transfer = some ⟨itemSm, "/d", 0, 0, 0⟩ ∧
    itemSm.file.size < 8 ∧
    (step mStale (Ev.offer 8 true)).2.confirm = true ∧
    (step mStale (Ev.offer 8 true)).1 ≠ mStale :=
  ⟨by decide, by decide, by decide, by decide⟩

/-- No active transfer carries an error-class status override: overrides
≥ 400 abort the request synchronously, so they never rest on a live
transfer. -/
def overrideOk (m : Machine) : Prop :=
  ∀ c, m.transfer = some c → c.overrideStatus < 400

theorem overrideOk_of_none (m : Machine) (h : m.transfer = none) : overrideOk m := by
  intro c hc
  rw [h] at hc
  cases hc

theorem overrideOk_sched (m : Machine) (h : overrideOk m) : overrideOk (sched m) := by
  rcases sched_cases m with hs | hs | ⟨e, d, r, es, -, -, -, hs⟩
  · rwa [hs]
  · intro c hc
    rw [hs] at hc
    exact h c hc
  · intro c hc
    rw [hs] at hc
    simp [startUpload] at hc
    rw [← hc]
    show (0 : Nat) < 400
    norm_num

theorem finishRequest_transfer (m : Machine) (s : Nat) :
    (finishRequest m s false).1.transfer = none := by
  cases hc : m.transfer with
  | none =>
    simp only [finishRequest, hc]
  | some c =>
    simp only [finishRequest, hc]
    simp [next_transfer]

theorem overrideOk_step (m : Machine) (ev : Ev) (h : overrideOk m) :
    overrideOk (step m ev).1 := by
  cases ev with
  | enqueue dest items =>
    apply overrideOk_sched
    intro c hc
    exact h c hc
  | progress loaded =>
    cases hc : m.transfer with
    | none => simpa [step, hc] using h
    | some c =>
      simp only [step, hc]
      apply overrideOk_sched
      intro c' hc'
      simp [onProgress, hc] at hc'
      rw [← hc']
      exact h c hc
  | loadend s =>
    cases hc : m.transfer with
    | none => simpa [step, hc] using h
    | some c =>
      simp only [step, hc]
      exact overrideOk_sched _ (overrideOk_of_none _ (finishRequest_transfer m s))
  | netError =>
    cases hc : m.transfer with
    | none => simpa [step, hc] using h
    | some c =>
      simp only [step, hc]
      exact overrideOk_sched _ (overrideOk_of_none _ (finishRequest_transfer _ 0))
  | offer size accepted =>
    cases hc : m.transfer with
    | none => simpa [step, hc] using h
    | some c =>
      cases hh : m.handler with
      | none => simpa [step, hc, hh] using h
      | some hd =>
        simp only [step, hc, hh]
        split
        · exact h
        · split
          · apply overrideOk_sched
            intro c' hc'
            simp [startUpload] at hc'
            rw [← hc']
            show (0 : Nat) < 400
            norm_num
          · exact h
  | statusOverride code =>
    cases hc : m.transfer with
    | none => simpa [step, hc] using h
    | some c =>
      simp only [step, hc]
      split
      · exact overrideOk_sched _ (overrideOk_of_none _ (finishRequest_transfer _ 0))
      · rename_i hlt
        intro c' hc'
        simp at hc'
        rw [← hc']
        show code < 400
        omega
  | togglePause =>
    apply overrideOk_sched
    intro c hc
    exact h c hc
  | clearQ =>
    exact overrideOk_sched _ (overrideOk_of_none _ (finishRequest_transfer _ 0))
  | removeItem idx item =>
    cases hc : m.transfer with
    | none =>
      simp only [step, hc]
      apply overrideOk_sched
      intro c hc'
      simp at hc'
    | some c =>
      simp only [step, hc]
      split
      · exact overrideOk_sched _ (overrideOk_of_none _ (finishRequest_transfer _ 0))
      · apply overrideOk_sched
        intro c' hc'
        simp at hc'
        rw [← hc']
        exact h c hc

theorem overrideOk_reach (a : Option String) (m : Machine) (hr : Reach a m) :
    overrideOk m := by
  induction hr with
  | init => exact overrideOk_of_none _ rfl
  | tail m ev _ ih => exact overrideOk_step m ev ih

/-- C10.  In any reachable state with an active transfer, a network
failure — `onerror` firing `error(0)` and the transport then completing
with status 0 — increments `errors` exactly once, by the error handler:
the completion handler contributes no second increment, because status 0
is treated as neither success nor error there; by contrast a bare
status-0 completion without the error handler (a user-initiated abort,
assuming no status override) leaves `errors` untouched. -/
theorem network_error_counted_once
    (a : Option String) (m : Machine) (c : TransferCtx)
    (hr : Reach a m) (hc : m.transfer = some c) :
    (step m Ev.netError).1.errors = m.errors + 1 ∧
    (c.overrideStatus = 0 → (step m (Ev.loadend 0)).1.errors = m.errors) := by
  have hov : c.overrideStatus < 400 := overrideOk_reach a m hr c hc
  constructor
  · have herr : (error m).1.transfer = some c := hc
    have hs : (step m Ev.netError).1 = sched (finishRequest (error m).1 0 false).1 := by
      simp [step, hc]
    rw [hs, sched_errors]
    by_cases h0 : c.overrideStatus = 0
    · have heff : effStatus c 0 = 0 := by simp [effStatus, h0]
      simp [finishRequest, hc, heff, next_errors, error]
    · have heff : effStatus c 0 = c.overrideStatus := by simp [effStatus, h0]
      have hn4 : ¬ 400 ≤ effStatus c 0 := by omega
      have hncf : effStatus c 0 ≠ HTTP_CONFLICT := by
        simp only [HTTP_CONFLICT]
        omega
      rw [heff] at hn4 hncf
      simp [finishRequest, hc, heff, h0, hn4, hncf, doneUpload, next_errors, error]
  · intro h0
    have heff : effStatus c 0 = 0 := by simp [effStatus, h0]
    have hfn : finishRequest m 0 false = (next m, false) := by
      simp [finishRequest, hc, heff]
    have hs : (step m (Ev.loadend 0)).1 = sched (next m) := by
      simp [step, hc, hfn]
    rw [hs, sched_errors, next_errors]

/-- Witness for C10 at a concrete reachable state. -/
theorem network_error_counted_once_witness :
    (step mA Ev.netError).1.errors = mA.errors + 1 ∧
    ((⟨itemA, "/d", 0, 0, 0⟩ : TransferCtx).overrideStatus = 0 →
      (step mA (Ev.loadend 0)).1.errors = mA.errors) :=
  network_error_counted_once none mA ⟨itemA, "/d", 0, 0, 0⟩
    (Reach.tail _ _ (Reach.init)) (by decide)

/-- C1 (amended).  If, while the transfer that registered the push
handler is still the active transfer and owns the in-flight request
(the handler's captured item and destination are the active ones and
its `resuming` flag is the live one), no out-of-band status override has
been recorded for the current request, and a resume offer of `S` bytes
(`0 < S ≤ fileSize`) is accepted, then: the current request is aborted
through the status-0 path (no counter moves), the queue does not
advance, a new transfer starts for the same item and destination with
resume offset `S` whose request body is the byte range `[S, fileSize)`
— bytes `[0, S)` are not re-sent — and every progress report of the new
transfer publishes `partialBytes = loaded + S`, so the reported progress
starts at `S`. -/
theorem resume_accept_restarts_at_offset
    (m : Machine) (c : TransferCtx) (S : Nat)
    (hc : m.transfer = some c)
    (hh : m.handler = some ⟨c.item, c.dest, true⟩)
    (hov : c.overrideStatus = 0)
    (h0 : S ≠ 0) (hle : S ≤ c.item.file.size) :
    (step m (Ev.offer S true)).1.qs = m.qs ∧
    (step m (Ev.offer S true)).1.done = m.done ∧
    (step m (Ev.offer S true)).1.doneByte = m.doneByte ∧
    (step m (Ev.offer S true)).1.errors = m.errors ∧
    (step m (Ev.offer S true)).1.transfer = some ⟨c.item, c.dest, S, 0, 0⟩ ∧
    requestRange ⟨c.item, c.dest, S, 0, 0⟩ = (S, c.item.file.size) ∧
    (∀ loaded,
      (step (step m (Ev.offer S true)).1 (Ev.progress loaded)).1.partialBytes = loaded + S) ∧
    (step m (Ev.offer S true)).2.confirm = true := by
  have heff : effStatus c 0 = 0 := by simp [effStatus, hov]
  have hfn : finishRequest m 0 true = (m, false) := by
    simp [finishRequest, hc, heff]
  have hgt : ¬ (S = 0 ∨ c.item.file.size < S) := by
    push_neg
    exact ⟨h0, le_of_not_lt (by omega)⟩
  have h1 : (step m (Ev.offer S true)).1 = sched (startUpload m c.item c.dest S) := by
    simp only [step, hc, hh, hfn]
    rw [if_neg hgt, if_pos trivial]
  have h2 : (step m (Ev.offer S true)).2 = { errMsg := false, confirm := true } := by
    simp only [step, hc, hh, hfn]
    rw [if_neg hgt, if_pos trivial]
  have htr : (step m (Ev.offer S true)).1.transfer = some ⟨c.item, c.dest, S, 0, 0⟩ := by
    rw [h1]
    exact sched_transfer_of_some _ _ rfl
  refine ⟨by rw [h1, sched_qs]; rfl, by rw [h1, sched_done]; rfl, by rw [h1, sched_doneByte]; rfl,
    by rw [h1, sched_errors]; rfl, htr, rfl, ?_, by rw [h2]⟩
  intro loaded
  generalize hM : (step m (Ev.offer S true)).1 = M at htr ⊢
  have hstep2 : (step M (Ev.progress loaded)).1 = sched (onProgress M loaded) := by
    simp [step, htr]
  rw [hstep2, sched_partialBytes]
  simp [onProgress, htr]

/-- Witness for C1's amended theorem at a concrete reachable state
whose push handler belongs to the in-flight transfer. -/
theorem resume_accept_restarts_at_offset_witness :
    (step mA (Ev.offer 4 true)).1.qs = mA.qs ∧
    (step mA (Ev.offer 4 true)).1.done = mA.done ∧
    (step mA (Ev.offer 4 true)).1.doneByte = mA.doneByte ∧
    (step mA (Ev.offer 4 true)).1.errors = mA.errors ∧
    (step mA (Ev.offer 4 true)).1.transfer = some ⟨itemA, "/d", 4, 0, 0⟩ ∧
    requestRange ⟨itemA, "/d", 4, 0, 0⟩ = (4, itemA.file.size) ∧
    (∀ loaded,
      (step (step mA (Ev.offer 4 true)).1 (Ev.progress loaded)).1.partialBytes = loaded + 4) ∧
    (step mA (Ev.offer 4 true)).2.confirm = true :=
  resume_accept_restarts_at_offset mA ⟨itemA, "/d", 0, 0, 0⟩ 4
    (by decide) (by decide) (by decide) (by decide) (by decide)

/-- A reachable state in which `itemA` is uploading and the server has
pushed a non-error status override of 200 for it. -/
def mOv : Machine := run (initM none) [Ev.enqueue "/d" [itemA], Ev.statusOverride 200]

/-- Counterexample to C1 as frozen, in two reachable scenarios.  With a
stale push handler (registered by the cycle's completed first transfer),
accepting an in-range offer while `itemSm` is active does advance the
queue — the handler's dead `resuming` flag cannot suppress `next()` —
and restarts the handler's captured `itemA`, not the active item.  And
with a pending non-error status override of 200, the abort is not the
status-0 path: `done` is incremented during the handoff. -/
theorem resume_accept_counterexample :
    (mStale.transfer = some ⟨itemSm, "/d", 0, 0, 0⟩ ∧
      (0 < 4 ∧ 4 ≤ itemSm.file.size) ∧
      mStale.qs ≠ [] ∧
      (step mStale (Ev.offer 4 true)).1.qs = [] ∧
      (step mStale (Ev.offer 4 true)).1.transfer = some ⟨itemA, "/d", 4, 0, 0⟩ ∧
      itemA ≠ itemSm) ∧
    (mOv.transfer = some ⟨itemA, "/d", 0, 0, 200⟩ ∧
      (0 < 4 ∧ 4 ≤ itemA.file.size) ∧
      mOv.done = 0 ∧
      (step mOv (Ev.offer 4 true)).1.done = 1) :=
  ⟨⟨by decide, by decide, by decide, by decide, by decide, by decide⟩,
   ⟨by decide, by decide, by decide, by decide⟩⟩

def countInDest (qs : List QueueEntry) (dest p : String) : Nat :=
  match findQ qs dest with
  | none => 0
  | some q => (q.entries.filter (fun x => path x.file = p)).length

theorem enqueue_single (a : Option String) (qs : List QueueEntry) (dest : String)
    (item : ToUpload) (hacc : simulateBrowserAccept a item.file = some true) :
    enqueue a qs dest [item] = (addToQs qs dest [item], false) := by
  simp [enqueue, hacc, dedupByPath, dedupByPathAux]

theorem addToQs_mem_noop (dest : String) (item : ToUpload) :
    ∀ qs q, findQ qs dest = some q →
      path item.file ∈ q.entries.map (fun y => path y.file) →
      addToQs qs dest [item] = qs := by
  intro qs
  induction qs with
  | nil => intro q hf; simp [findQ] at hf
  | cons q0 rest ih =>
    intro q hf hmem
    by_cases hd : q0.dest = dest
    · have hq : q0 = q := by
        simp [findQ, List.find?_cons, hd] at hf
        exact hf
      subst hq
      simp only [addToQs, if_pos hd]
      have : List.filter (fun x => decide (path x.file ∉
          q0.entries.map (fun y => path y.file))) [item] = [] := by
        simp [List.filter, hmem]
      rw [this]
      simp
    · have hf' : findQ rest dest = some q := by
        simpa [findQ, List.find?_cons, hd] using hf
      simp only [addToQs, if_neg hd]
      rw [ih q hf' hmem]

theorem addToQs_count_new (dest : String) (item : ToUpload) :
    ∀ qs, countInDest qs dest (path item.file) = 0 →
      countInDest (addToQs qs dest [item]) dest (path item.file) = 1 := by
  intro qs
  induction qs with
  | nil =>
    intro h
    simp [addToQs, countInDest, findQ, List.find?]
  | cons q0 rest ih =>
    intro h
    by_cases hd : q0.dest = dest
    · have hcnt : (q0.entries.filter (fun x => path x.file = path item.file)).length = 0 := by
        simpa [countInDest, findQ, List.find?_cons, hd] using h
      have hnm : path item.file ∉ q0.entries.map (fun y => path y.file) := by
        intro hmem
        rw [List.mem_map] at hmem
        obtain ⟨y, hy, hpy⟩ := hmem
        have : y ∈ q0.entries.filter (fun x => path x.file = path item.file) := by
          rw [List.mem_filter]
          exact ⟨hy, by simp [hpy]⟩
        rw [List.length_eq_zero] at hcnt
        rw [hcnt] at this
        cases this
      have hkeep : List.filter (fun x => decide (path x.file ∉
          q0.entries.map (fun y => path y.file))) [item] = [item] := by
        simp [List.filter, hnm]
      simp only [addToQs, if_pos hd, hkeep]
      simp [countInDest, findQ, List.find?_cons, hd, List.filter_append,
        List.length_eq_zero.mp hcnt]
    · have h' : countInDest rest dest (path item.file) = 0 := by
        simpa [countInDest, findQ, List.find?_cons, hd] using h
      simp only [addToQs, if_neg hd]
      simpa [countInDest, findQ, List.find?_cons, hd] using ih h'

theorem countInDest_pos_mem (qs : List QueueEntry) (dest p : String)
    (h : countInDest qs dest p ≠ 0) :
    ∃ q, findQ qs dest = some q ∧ p ∈ q.entries.map (fun y => path y.file) := by
  unfold countInDest at h
  cases hf : findQ qs dest with
  | none => rw [hf] at h; exact absurd rfl h
  | some q =>
    rw [hf] at h
    refine ⟨q, rfl, ?_⟩
    rcases List.length_pos.mp (Nat.pos_of_ne_zero h) with hne
    obtain ⟨x, hx⟩ := List.exists_mem_of_length_pos (Nat.pos_of_ne_zero h)
    rw [List.mem_filter] at hx
    rw [List.mem_map]
    exact ⟨x, hx.1, by simpa using hx.2⟩

/-- C5.  Enqueuing is idempotent on identity: an item whose
(destination, relative path) already exists in that destination's entry
leaves the queue unchanged (and fires no rejection notice), so enqueuing
the same accepted item twice to an initially path-free destination
yields exactly one pending item with that relative path there. -/
theorem enqueue_idempotent
    (a : Option String) (qs : List QueueEntry) (dest : String) (item : ToUpload)
    (hacc : simulateBrowserAccept a item.file = some true) :
    (∀ q, findQ qs dest = some q →
      path item.file ∈ q.entries.map (fun y => path y.file) →
      enqueue a qs dest [item] = (qs, false)) ∧
    (countInDest qs dest (path item.file) = 0 →
      countInDest (enqueue a (enqueue a qs dest [item]).1 dest [item]).1
        dest (path item.file) = 1) := by
  constructor
  · intro q hf hmem
    rw [enqueue_single a qs dest item hacc, addToQs_mem_noop dest item qs q hf hmem]
  · intro h0
    rw [enqueue_single a qs dest item hacc]
    have h1 : countInDest (addToQs qs dest [item]) dest (path item.file) = 1 :=
      addToQs_count_new dest item qs h0
    obtain ⟨q, hf, hmem⟩ := countInDest_pos_mem (addToQs qs dest [item]) dest
      (path item.file) (by rw [h1]; exact one_ne_zero)
    rw [enqueue_single a (addToQs qs dest [item]) dest item hacc,
      addToQs_mem_noop dest item (addToQs qs dest [item]) q hf hmem]
    exact h1

/-- Witness for C5 at concrete inputs: enqueuing `itemA` twice into an
empty queue yields one copy. -/
theorem enqueue_idempotent_witness :
    (∀ q, findQ ([] : List QueueEntry) "/d" = some q →
      path itemA.file ∈ q.entries.map (fun y => path y.file) →
      enqueue none [] "/d" [itemA] = ([], false)) ∧
    (countInDest [] "/d" (path itemA.file) = 0 →
      countInDest (enqueue none (enqueue none [] "/d" [itemA]).1
        "/d" [itemA]).1 "/d" (path itemA.file) = 1) :=
  enqueue_idempotent none [] "/d" itemA (by decide)

/-- Every queue entry holds at least one pending item. -/
def entriesNonEmpty (qs : List QueueEntry) : Prop :=
  ∀ q ∈ qs, q.entries ≠ []

theorem entriesNonEmpty_addToQs (dest : String) (es : List ToUpload) (hes : es ≠ []) :
    ∀ qs, entriesNonEmpty qs → entriesNonEmpty (addToQs qs dest es) := by
  intro qs
  induction qs with
  | nil =>
    intro _ q hq
    simp [addToQs] at hq
    rw [hq]
    exact hes
  | cons q0 rest ih =>
    intro h q hq
    by_cases hd : q0.dest = dest
    · simp only [addToQs, if_pos hd] at hq
      rcases List.mem_cons.mp hq with hq | hq
      · rw [hq]
        intro hcontra
        have h0 : q0.entries = [] := (List.append_eq_nil.mp hcontra).1
        exact h q0 (List.mem_cons_self _ _) h0
      · exact h q (List.mem_cons_of_mem _ hq)
    · simp only [addToQs, if_neg hd] at hq
      rcases List.mem_cons.mp hq with hq | hq
      · rw [hq]
        exact h q0 (List.mem_cons_self _ _)
      · exact ih (fun x hx => h x (List.mem_cons_of_mem _ hx)) q hq

theorem entriesNonEmpty_advanceQ (qs : List QueueEntry) (h : entriesNonEmpty qs) :
    entriesNonEmpty (advanceQ qs) := by
  cases qs with
  | nil => exact h
  | cons q rest =>
    simp only [advanceQ]
    split
    · exact fun x hx => h x (List.mem_cons_of_mem _ hx)
    · rename_i hne
      intro x hx
      rcases List.mem_cons.mp hx with hx | hx
      · rw [hx]
        exact hne
      · exact h x (List.mem_cons_of_mem _ hx)

theorem entriesNonEmpty_removeAt (item : ToUpload) :
    ∀ qs idx, entriesNonEmpty qs → entriesNonEmpty (removeAt qs idx item) := by
  intro qs
  induction qs with
  | nil => intro idx h; simpa [removeAt] using h
  | cons q0 rest ih =>
    intro idx h
    cases idx with
    | zero =>
      simp only [removeAt]
      split
      · exact fun x hx => h x (List.mem_cons_of_mem _ hx)
      · rename_i hne
        intro x hx
        rcases List.mem_cons.mp hx with hx | hx
        · rw [hx]
          exact hne
        · exact h x (List.mem_cons_of_mem _ hx)
    | succ i =>
      intro x hx
      simp only [removeAt] at hx
      rcases List.mem_cons.mp hx with hx | hx
      · rw [hx]
        exact h q0 (List.mem_cons_self _ _)
      · exact ih i (fun y hy => h y (List.mem_cons_of_mem _ hy)) x hx

theorem dedupByPathAux_mem (b : ToUpload) :
    ∀ seen l, b ∈ dedupByPathAux seen l → b ∈ l := by
  intro seen l
  induction l generalizing seen with
  | nil => intro h; simp [dedupByPathAux] at h
  | cons x r ih =>
    intro h
    rw [dedupByPathAux] at h
    split at h
    · exact List.mem_cons_of_mem _ (ih _ h)
    · rcases List.mem_cons.mp h with h | h
      · exact h ▸ List.mem_cons_self _ _
      · exact List.mem_cons_of_mem _ (ih _ h)

theorem enqueue_qs_cases (a : Option String) (qs : List QueueEntry) (dest : String)
    (items : List ToUpload) :
    (enqueue a qs dest items).1 = qs ∨
    ∃ es, es ≠ [] ∧ (∀ b ∈ es, b ∈ items) ∧
      (enqueue a qs dest items).1 = addToQs qs dest es := by
  by_cases h1 : (items.any fun x => (simulateBrowserAccept a x.file).isNone) = true
  · exact Or.inl (by simp [enqueue, h1])
  · by_cases h2 : (dedupByPath (items.filter fun x =>
        simulateBrowserAccept a x.file = some true)).isEmpty = true
    · exact Or.inl (by simp [enqueue, h1, h2])
    · refine Or.inr ⟨dedupByPath (items.filter fun x =>
        simulateBrowserAccept a x.file = some true), ?_, ?_, by simp [enqueue, h1, h2]⟩
      · simpa [List.isEmpty_iff] using h2
      · intro b hb
        exact List.mem_of_mem_filter (dedupByPathAux_mem b [] _ hb)

theorem finishRequest_qs (m : Machine) (s : Nat) (b : Bool) :
    (finishRequest m s b).1.qs = m.qs ∨ (finishRequest m s b).1.qs = advanceQ m.qs := by
  cases hc : m.transfer with
  | none =>
    have hfr : finishRequest m s b = (m, false) := by simp [finishRequest, hc]
    rw [hfr]
    exact Or.inl rfl
  | some c =>
    simp only [finishRequest, hc]
    have hr : (if effStatus c s ≠ 0 ∧ effStatus c s ≠ HTTP_CONFLICT then
        if 400 ≤ effStatus c s then error m
        else (doneUpload m c.item.file.size, false)
      else (m, false)).1.qs = m.qs := by
      split
      · split <;> simp [error, doneUpload]
      · rfl
    cases b with
    | true =>
      simp only [if_pos rfl]
      exact Or.inl hr
    | false =>
      simp only [Bool.false_eq_true, if_false]
      right
      rw [next_qs]
      exact congrArg advanceQ hr

theorem entriesNonEmpty_step (m : Machine) (ev : Ev)
    (h : entriesNonEmpty m.qs) : entriesNonEmpty (step m ev).1.qs := by
  cases ev with
  | enqueue dest items =>
    rw [show (step m (Ev.enqueue dest items)).1 =
      sched { m with qs := (enqueue m.accept m.qs dest items).1 } from rfl, sched_qs]
    rcases enqueue_qs_cases m.accept m.qs dest items with hq | ⟨es, hes, -, hq⟩
    · rw [hq]; exact h
    · rw [hq]
      exact entriesNonEmpty_addToQs dest es hes m.qs h
  | progress loaded =>
    cases hc : m.transfer with
    | none => simpa [step, hc] using h
    | some c =>
      have : (step m (Ev.progress loaded)).1.qs = m.qs := by
        simp [step, hc, sched_qs, onProgress]
      rwa [this]
  | loadend s =>
    cases hc : m.transfer with
    | none => simpa [step, hc] using h
    | some c =>
      have hst : (step m (Ev.loadend s)).1.qs = (finishRequest m s false).1.qs := by
        simp [step, hc, sched_qs]
      rw [hst]
      rcases finishRequest_qs m s false with hq | hq
      · rw [hq]; exact h
      · rw [hq]; exact entriesNonEmpty_advanceQ m.qs h
  | netError =>
    cases hc : m.transfer with
    | none => simpa [step, hc] using h
    | some c =>
      have hst : (step m Ev.netError).1.qs = (finishRequest (error m).1 0 false).1.qs := by
        simp [step, hc, sched_qs]
      rw [hst]
      rcases finishRequest_qs (error m).1 0 false with hq | hq
      · rw [hq]; exact h
      · rw [hq]; exact entriesNonEmpty_advanceQ m.qs h
  | offer size accepted =>
    cases hc : m.transfer with
    | none => simpa [step, hc] using h
    | some c =>
      cases hh : m.handler with
      | none => simpa [step, hc, hh] using h
      | some hd =>
        simp only [step, hc, hh]
        split
        · exact h
        · split
          · rw [sched_qs]
            have : (startUpload (finishRequest m 0 hd.isCurrent).1 hd.item hd.dest size).qs =
                (finishRequest m 0 hd.isCurrent).1.qs := rfl
            rw [this]
            rcases finishRequest_qs m 0 hd.isCurrent with hq | hq
            · rw [hq]; exact h
            · rw [hq]; exact entriesNonEmpty_advanceQ m.qs h
          · exact h
  | statusOverride code =>
    cases hc : m.transfer with
    | none => simpa [step, hc] using h
    | some c =>
      simp only [step, hc]
      split
      · rw [sched_qs]
        rcases finishRequest_qs _ 0 false with hq | hq
        · rw [hq]; exact h
        · rw [hq]; exact entriesNonEmpty_advanceQ _ h
      · exact h
  | togglePause =>
    rw [show (step m Ev.togglePause).1 = sched { m with paused := !m.paused } from rfl,
      sched_qs]
    exact h
  | clearQ =>
    have hst : (step m Ev.clearQ).1.qs = (finishRequest { m with qs := [] } 0 false).1.qs := by
      simp [step, sched_qs]
    rw [hst]
    rcases finishRequest_qs { m with qs := [] } 0 false with hq | hq
    · rw [hq]; intro q hq'; cases hq'
    · rw [hq]; intro q hq'; simp [advanceQ] at hq'
  | removeItem idx item =>
    cases hc : m.transfer with
    | none =>
      have hst : (step m (Ev.removeItem idx item)).1.qs = removeAt m.qs idx item := by
        simp [step, hc, sched_qs]
      rw [hst]
      exact entriesNonEmpty_removeAt item m.qs idx h
    | some c =>
      simp only [step, hc]
      split
      · rw [sched_qs]
        rcases finishRequest_qs m 0 false with hq | hq
        · rw [hq]; exact h
        · rw [hq]; exact entriesNonEmpty_advanceQ m.qs h
      · rw [sched_qs]
        exact entriesNonEmpty_removeAt item m.qs idx h

/-- C6.  In every reachable upload state, every queue entry has a
non-empty entries sequence: completions and removals prune an emptied
entry within the same update, and `enqueue` never creates an empty
entry. -/
theorem reachable_queue_entries_nonempty
    (a : Option String) (m : Machine) (hr : Reach a m) :
    ∀ q ∈ m.qs, q.entries ≠ [] := by
  induction hr with
  | init => intro q hq; cases hq
  | tail m ev _ ih => exact entriesNonEmpty_step m ev ih

/-- Witness for C6: the invariant instantiated at a concrete reachable
state whose queue holds one entry. -/
theorem reachable_queue_entries_nonempty_witness :
    (⟨"/d", [itemA]⟩ : QueueEntry).entries ≠ [] :=
  reachable_queue_entries_nonempty none mA
    (Reach.tail _ _ (Reach.init)) ⟨"/d", [itemA]⟩ (by decide)

/-- A literal, unstarred regex element. -/
def litElem (c : Char) : RElem :=
  ⟨RAtom.lit c, false⟩

/-- Characters with no special meaning in the regexes the source builds:
not the engine's specials (`.`, `*`, backslash) and not a JS regex
metacharacter the model reads as a literal. -/
def plainChar (c : Char) : Bool :=
  !(c = '.' ∨ c = '*' ∨ c = '\\' ∨ c = '+' ∨ c = '?' ∨ c = '(' ∨ c = ')' ∨
    c = '[' ∨ c = ']' ∨ c = '^' ∨ c = '$' ∨ c = '\x7b' ∨ c = '\x7d' ∨ c = '|')

/-- Does `l₁` occur as a contiguous substring of `l₂`. -/
def occursIn (l₁ : List Char) : List Char → Bool
  | [] => l₁.isEmpty
  | c :: r => l₁.isPrefixOf (c :: r) || occursIn l₁ r

theorem isPrefixOf_exists (l₁ : List Char) :
    ∀ l₂, l₁.isPrefixOf l₂ = true ↔ ∃ t, l₂ = l₁ ++ t := by
  induction l₁ with
  | nil => intro l₂; simp [List.isPrefixOf]
  | cons a l ih =>
    intro l₂
    cases l₂ with
    | nil => simp [List.isPrefixOf]
    | cons b t =>
      simp only [List.isPrefixOf, Bool.and_eq_true, beq_iff_eq, ih t]
      constructor
      · rintro ⟨rfl, u, rfl⟩
        exact ⟨u, rfl⟩
      · rintro ⟨u, hu⟩
        injection hu with h1 h2
        exact ⟨h1.symm, u, h2⟩

theorem occursIn_iff (l₁ : List Char) :
    ∀ l₂, occursIn l₁ l₂ = true ↔ ∃ pre post, l₂ = pre ++ l₁ ++ post := by
  intro l₂
  induction l₂ with
  | nil =>
    simp only [occursIn, List.isEmpty_iff]
    constructor
    · rintro rfl
      exact ⟨[], [], rfl⟩
    · rintro ⟨pre, post, h⟩
      rcases List.append_eq_nil.mp (List.append_eq_nil.mp h.symm).1 with ⟨-, h2⟩
      exact h2
  | cons c r ih =>
    simp only [occursIn, Bool.or_eq_true, isPrefixOf_exists, ih]
    constructor
    · rintro (⟨t, ht⟩ | ⟨pre, post, hp⟩)
      · exact ⟨[], t, by simp [ht]⟩
      · exact ⟨c :: pre, post, by simp [hp]⟩
    · rintro ⟨pre, post, hp⟩
      cases pre with
      | nil =>
        left
        exact ⟨post, by simpa using hp⟩
      | cons d pre' =>
        right
        injection hp with h1 h2
        exact ⟨pre', post, h2⟩

theorem replDot_plain (l : List Char) (h : ∀ c ∈ l, c ≠ '.') : replDot l = l := by
  induction l with
  | nil => rfl
  | cons c r ih =>
    have hc : c ≠ '.' := h c (List.mem_cons_self _ _)
    rw [show replDot (c :: r) = c :: replDot r from by simp [replDot, hc]]
    rw [ih (fun x hx => h x (List.mem_cons_of_mem _ hx))]

theorem replStar_no_star (l : List Char) (h : ∀ c ∈ l, c ≠ '*') : replStar l = l := by
  induction l with
  | nil => rfl
  | cons c r ih =>
    have hc : c ≠ '*' := h c (List.mem_cons_self _ _)
    rw [show replStar (c :: r) = c :: replStar r from by simp [replStar, hc]]
    rw [ih (fun x hx => h x (List.mem_cons_of_mem _ hx))]

theorem replStar_append_star (stem rest : List Char) (h : ∀ c ∈ stem, c ≠ '*') :
    replStar (stem ++ '*' :: rest) = stem ++ '.' :: '*' :: rest := by
  induction stem with
  | nil => rfl
  | cons c r ih =>
    have hc : c ≠ '*' := h c (List.mem_cons_self _ _)
    rw [List.cons_append,
      show replStar (c :: (r ++ '*' :: rest)) = c :: replStar (r ++ '*' :: rest) from by
        simp [replStar, hc]]
    rw [ih (fun x hx => h x (List.mem_cons_of_mem _ hx))]
    rfl

theorem plainChar_spec (c : Char) (h : plainChar c = true) :
    c ≠ '.' ∧ c ≠ '*' ∧ c ≠ '\\' := by
  simp [plainChar] at h
  exact ⟨h.1, h.2.1, h.2.2.1⟩

theorem parseR_cons_plain (c : Char) (rest : List Char)
    (hc : plainChar c = true) (hr : rest.head? ≠ some '*') :
    parseR (c :: rest) = (parseR rest).map (fun ts => litElem c :: ts) := by
  obtain ⟨hc3, hc1, hc2⟩ := plainChar_spec c hc
  cases rest with
  | nil => simp [parseR, hc1, hc2, hc3, litElem]
  | cons d r2 =>
    have hd : d ≠ '*' := by
      intro h
      exact hr (by rw [h]; rfl)
    simp [parseR, hc1, hc2, hc3, hd, litElem]

theorem parseR_plain_prepend (tail : List Char) (ht : tail.head? ≠ some '*') :
    ∀ stem, (∀ c ∈ stem, plainChar c = true) →
      parseR (stem ++ tail) = (parseR tail).map (fun ts => stem.map litElem ++ ts) := by
  intro stem
  induction stem with
  | nil =>
    intro _
    simp only [List.nil_append, List.map_nil]
    cases parseR tail <;> simp
  | cons c stem' ih =>
    intro h
    have hc : plainChar c = true := h c (List.mem_cons_self _ _)
    have hhead : (stem' ++ tail).head? ≠ some '*' := by
      cases stem' with
      | nil => simpa using ht
      | cons d r =>
        have hd : plainChar d = true := h d (List.mem_cons_of_mem _ (List.mem_cons_self _ _))
        obtain ⟨-, hd1, -⟩ := plainChar_spec d hd
        simp [hd1]
    rw [List.cons_append, parseR_cons_plain c (stem' ++ tail) hc hhead,
      ih (fun x hx => h x (List.mem_cons_of_mem _ hx))]
    cases parseR tail <;> simp

theorem matchHere_lits (bs : List Char) (ts : List RElem) :
    ∀ s, matchHere (bs.map litElem ++ ts) s =
      (bs.isPrefixOf s && matchHere ts (s.drop bs.length)) := by
  induction bs with
  | nil => intro s; simp [List.isPrefixOf]
  | cons c bs' ih =>
    intro s
    cases s with
    | nil => simp [litElem, matchHere, List.isPrefixOf]
    | cons d s' =>
      simp only [List.map_cons, List.cons_append, matchHere, litElem, atomMatch,
        List.isPrefixOf, List.length_cons, List.drop_succ_cons, ih s']
      cases hcd : (c = d : Bool) <;> simp_all [Bool.and_assoc]

theorem matchHere_dotstar : ∀ s, matchHere [(⟨RAtom.dot, true⟩ : RElem)] s = true := by
  intro s
  induction s with
  | nil => simp [matchHere]
  | cons c r ih => simp [matchHere, atomMatch, ih]

theorem matchHere_lits_nil (bs : List Char) (s : List Char) :
    matchHere (bs.map litElem) s = bs.isPrefixOf s := by
  have h := matchHere_lits bs [] s
  simpa [matchHere] using h

theorem matchHere_lits_ds (bs : List Char) (s : List Char) :
    matchHere (bs.map litElem ++ [(⟨RAtom.dot, true⟩ : RElem)]) s = bs.isPrefixOf s := by
  rw [matchHere_lits bs [(⟨RAtom.dot, true⟩ : RElem)] s, matchHere_dotstar]
  simp

theorem isPrefixOf_nil_right (bs : List Char) : bs.isPrefixOf [] = bs.isEmpty := by
  cases bs <;> simp [List.isPrefixOf]

theorem reTest_lits (bs : List Char) :
    ∀ s, reTest (bs.map litElem) s = occursIn bs s := by
  intro s
  induction s with
  | nil => simp [reTest, matchHere_lits_nil, occursIn, isPrefixOf_nil_right]
  | cons c r ih => simp [reTest, matchHere_lits_nil, occursIn, ih]

theorem reTest_lits_ds (bs : List Char) :
    ∀ s, reTest (bs.map litElem ++ [(⟨RAtom.dot, true⟩ : RElem)]) s = occursIn bs s := by
  intro s
  induction s with
  | nil => simp [reTest, matchHere_lits_ds, occursIn, isPrefixOf_nil_right]
  | cons c r ih => simp [reTest, matchHere_lits_ds, occursIn, ih]

theorem getLast?_decomp : ∀ (l : List Char) (c : Char),
    l.getLast? = some c → l = l.dropLast ++ [c] := by
  intro l
  induction l with
  | nil => intro c h; cases h
  | cons a t ih =>
    intro c h
    cases t with
    | nil =>
      simp [List.getLast?] at h
      simp [h]
    | cons b t' =>
      rw [List.getLast?_cons_cons] at h
      have h2 := ih c h
      calc a :: b :: t' = a :: ((b :: t').dropLast ++ [c]) := by rw [← h2]
        _ = (a :: b :: t').dropLast ++ [c] := by simp

/-- Per-pattern side condition under which the matcher is characterized:
a leading-dot pattern (handled by `endsWith` without any regex), or a
pattern whose characters — apart from an optional trailing `*` — are all
plain. -/
def patOk (p : String) : Bool :=
  if startsDot p then true
  else if p.toList.getLast? = some '*' then (p.toList.dropLast).all plainChar
  else p.toList.all plainChar

/-- The amended reading of one accept pattern: a leading `.` is a suffix
test on the file name; a trailing `*` means the part before the star
occurs as a substring of the declared MIME type (the regex is
unanchored); any other pattern likewise matches when it occurs as a
substring of the MIME type. -/
def amendedMatch (p : String) (f : FileRec) : Bool :=
  if startsDot p then strEndsWith f.name p
  else if p.toList.getLast? = some '*' then occursIn p.toList.dropLast f.type.toList
  else occursIn p.toList f.type.toList

theorem patRes_ok (p : String) (f : FileRec) (h : patOk p = true) :
    patRes p f = some (amendedMatch p f) := by
  by_cases hdot : startsDot p = true
  · simp [patRes, amendedMatch, hdot]
  · by_cases hstar : p.toList.getLast? = some '*'
    · have hplain : ∀ c ∈ p.toList.dropLast, plainChar c = true := by
        have := h
        simp only [patOk, if_neg hdot, if_pos hstar, List.all_eq_true] at this
        exact this
      have hdecomp : p.toList = p.toList.dropLast ++ ['*'] :=
        getLast?_decomp p.toList '*' hstar
      have hnostar : ∀ c ∈ p.toList.dropLast, c ≠ '*' :=
        fun c hc => (plainChar_spec c (hplain c hc)).2.1
      have hnodot : ∀ c ∈ p.toList.dropLast ++ ['*'], c ≠ '.' := by
        intro c hc
        rcases List.mem_append.mp hc with hc | hc
        · exact (plainChar_spec c (hplain c hc)).1
        · simp at hc
          rw [hc]
          decide
      have hreg : toRegex p.toList = p.toList.dropLast ++ '.' :: '*' :: [] := by
        conv_lhs => rw [toRegex, hdecomp]
        rw [replDot_plain _ hnodot, replStar_append_star _ _ hnostar]
      have hparse : parseR (toRegex p.toList) =
          some (p.toList.dropLast.map litElem ++ [(⟨RAtom.dot, true⟩ : RElem)]) := by
        rw [hreg]
        rw [parseR_plain_prepend ('.' :: '*' :: []) (by decide) _ hplain]
        rfl
      rw [patRes, if_neg hdot, hparse]
      simp only [reTest_lits_ds]
      unfold amendedMatch
      rw [if_neg hdot, if_pos hstar]
    · have hplain : ∀ c ∈ p.toList, plainChar c = true := by
        have := h
        simp only [patOk, if_neg hdot, if_neg hstar, List.all_eq_true] at this
        exact this
      have hnostar : ∀ c ∈ p.toList, c ≠ '*' :=
        fun c hc => (plainChar_spec c (hplain c hc)).2.1
      have hnodot : ∀ c ∈ p.toList, c ≠ '.' :=
        fun c hc => (plainChar_spec c (hplain c hc)).1
      have hreg : toRegex p.toList = p.toList := by
        rw [toRegex, replDot_plain _ hnodot, replStar_no_star _ hnostar]
      have hparse : parseR (toRegex p.toList) = some (p.toList.map litElem) := by
        rw [hreg]
        have := parseR_plain_prepend [] (by decide) p.toList hplain
        simpa [parseR] using this
      rw [patRes, if_neg hdot, hparse]
      simp only [reTest_lits]
      unfold amendedMatch
      rw [if_neg hdot, if_neg hstar]

theorem acceptSome_ok (f : FileRec) :
    ∀ ps, (∀ p ∈ ps, patOk p = true) →
      acceptSome ps f = some (ps.any (fun p => amendedMatch p f)) := by
  intro ps
  induction ps with
  | nil => intro _; rfl
  | cons p ps' ih =>
    intro h
    have hp := patRes_ok p f (h p (List.mem_cons_self _ _))
    rw [acceptSome, hp]
    cases hm : amendedMatch p f with
    | true => simp [hm]
    | false =>
      rw [ih (fun x hx => h x (List.mem_cons_of_mem _ hx))]
      simp [hm]

/-- The frozen claim's reading of one accept pattern, for comparison
with the source matcher: a leading `.` is a suffix test on the name, a
trailing `*` demands the part before the star be a prefix of the
declared MIME type, and any other pattern must equal the MIME type
exactly. -/
def claimPatMatch (p : String) (f : FileRec) : Bool :=
  if startsDot p then strEndsWith f.name p
  else if p.toList.getLast? = some '*' then p.toList.dropLast.isPrefixOf f.type.toList
  else p == f.type

/-- C9 (amended).  For a non-empty accept policy whose patterns are
plain (apart from a leading `.` or a trailing `*`), a file passes the
policy exactly when some pattern matches it, where a leading-dot pattern
is a suffix test on the file name and every other pattern — the part
before a trailing `*`, or the whole pattern — matches when it occurs as
a substring of the declared MIME type (the regex the code builds is
unanchored, so prefix/exact-equality readings are too strong); a file
the policy rejects is removed before enqueuing, never appears in the
queue, and the rejection notice fires exactly once for the batch, as in
the claim's `report.pdf` under `.png` scenario. -/
theorem accept_policy_characterized (a : String) (f : FileRec)
    (ha : a ≠ "")
    (hok : ∀ p ∈ commaSplit (normalizeAccept a), patOk p = true) :
    simulateBrowserAccept (some a) f =
      some ((commaSplit (normalizeAccept a)).any (fun p => amendedMatch p f)) ∧
    (simulateBrowserAccept (some a) f = some true ↔
      ∃ p ∈ commaSplit (normalizeAccept a), amendedMatch p f = true) ∧
    (simulateBrowserAccept (some a) f = some false →
      ∀ qs dest, enqueue (some a) qs dest [⟨f, none⟩] = (qs, true)) ∧
    enqueue (some ".png") [] "/docs/" [⟨⟨"report.pdf", "application/pdf", 100, ""⟩, none⟩]
      = ([], true) := by
  have h1 : simulateBrowserAccept (some a) f =
      some ((commaSplit (normalizeAccept a)).any (fun p => amendedMatch p f)) := by
    rw [simulateBrowserAccept, if_neg ha]
    exact acceptSome_ok f _ hok
  refine ⟨h1, ?_, ?_, by decide⟩
  · rw [h1]
    simp [List.any_eq_true]
  · intro hrej qs dest
    simp [enqueue, hrej, dedupByPath, dedupByPathAux]

/-- Witness for C9's amended theorem: policy `text/plain|.png` accepts
`cat.png` through its second pattern. -/
theorem accept_policy_characterized_witness :
    simulateBrowserAccept (some "text/plain|.png") ⟨"cat.png", "image/png", 7, ""⟩ =
      some ((commaSplit (normalizeAccept "text/plain|.png")).any
        (fun p => amendedMatch p ⟨"cat.png", "image/png", 7, ""⟩)) ∧
    (simulateBrowserAccept (some "text/plain|.png") ⟨"cat.png", "image/png", 7, ""⟩ =
        some true ↔
      ∃ p ∈ commaSplit (normalizeAccept "text/plain|.png"),
        amendedMatch p ⟨"cat.png", "image/png", 7, ""⟩ = true) ∧
    (simulateBrowserAccept (some "text/plain|.png") ⟨"cat.png", "image/png", 7, ""⟩ =
        some false →
      ∀ qs dest, enqueue (some "text/plain|.png") qs dest
        [⟨⟨"cat.png", "image/png", 7, ""⟩, none⟩] = (qs, true)) ∧
    enqueue (some ".png") [] "/docs/" [⟨⟨"report.pdf", "application/pdf", 100, ""⟩, none⟩]
      = ([], true) :=
  accept_policy_characterized "text/plain|.png" ⟨"cat.png", "image/png", 7, ""⟩
    (by decide) (by decide)

/-- Counterexample to C9 as frozen: under policy `image/*`, a file with
declared MIME type `ximage/png` passes the source matcher (the built
regex `image/.*` is unanchored, so `image/` need only occur as a
substring), while the claim's prefix reading rejects every pattern of
the policy for that file. -/
theorem accept_policy_counterexample :
    simulateBrowserAccept (some "image/*") ⟨"x", "ximage/png", 5, ""⟩ = some true ∧
    ((commaSplit (normalizeAccept "image/*")).any
      (fun p => claimPatMatch p ⟨"x", "ximage/png", 5, ""⟩)) = false := by
  constructor
  · have h : simulateBrowserAccept (some "image/*") ⟨"x", "ximage/png", 5, ""⟩ =
        some ((commaSplit (normalizeAccept "image/*")).any
          (fun p => amendedMatch p ⟨"x", "ximage/png", 5, ""⟩)) := by
      rw [simulateBrowserAccept, if_neg (by decide)]
      exact acceptSome_ok _ _ (by decide)
    rw [h]
    decide
  · decide

/-- All pending items of the queue in upload order (destinations in
queue order, items in entry order). -/
def flattenQs : List QueueEntry → List ToUpload
  | [] => []
  | q :: rest => q.entries ++ flattenQs rest

/-- Scanning the queue order from the front, `A` is seen strictly
before any occurrence of `B`. -/
def aBefore (A B : ToUpload) : List ToUpload → Bool
  | [] => true
  | x :: r => if x = B then false else if x = A then true else aBefore A B r

/-- The active transfer, when present, is always the first pending item
of the whole queue (the watcher only ever starts the head of the head
entry, and the head can only grow behind it). -/
def headInv (m : Machine) : Prop :=
  ∀ c, m.transfer = some c → (flattenQs m.qs).head? = some c.item

/-- When the registered push handler still owns the in-flight request
(it was registered by the `startUpload` call whose request is live), the
item and destination it captured are the active ones.  This holds
because registration happens inside `startUpload` itself and every later
`startUpload` of the cycle demotes the closure to stale. -/
def handlerCur (m : Machine) : Prop :=
  ∀ hd c, m.handler = some hd → hd.isCurrent = true → m.transfer = some c →
    hd.item = c.item

/-- The invariant carried along a trace for the FIFO claim. -/
def FifoInv (A B : ToUpload) (m : Machine) : Prop :=
  entriesNonEmpty m.qs ∧ headInv m ∧ handlerCur m ∧
    aBefore A B (flattenQs m.qs) = true

/-- Traces considered by the FIFO claim: no user cancellation (queue
clear or item removal, which discard items without a terminal state) and
no re-enqueue of `B` itself. -/
def allowedEv (B : ToUpload) : Ev → Bool
  | Ev.clearQ => false
  | Ev.removeItem _ _ => false
  | Ev.enqueue _ items => decide (B ∉ items)
  | _ => true

/-- The event gives `A`'s transfer a terminal state: `A` is the active
item and the event is a transport completion whose effective status
(`overrideStatus || req.status`) is non-zero — success, conflict skip,
or error, but not an abort — a network error, or an error-class status
override. -/
def completesA (A : ToUpload) (m : Machine) : Ev → Prop
  | Ev.loadend s => ∃ c, m.transfer = some c ∧ c.item = A ∧ effStatus c s ≠ 0
  | Ev.netError => ∃ c, m.transfer = some c ∧ c.item = A
  | Ev.statusOverride code => 400 ≤ code ∧ ∃ c, m.transfer = some c ∧ c.item = A
  | _ => False

/-- The item currently being uploaded. -/
def uploadingItem (m : Machine) : Option ToUpload :=
  m.transfer.map (fun c => c.item)

theorem completesA_active (A : ToUpload) (m : Machine) :
    ∀ e, completesA A m e → uploadingItem m = some A := by
  intro e h
  have hex : ∃ c, m.transfer = some c ∧ c.item = A := by
    cases e with
    | loadend s => obtain ⟨c, hc, hi, -⟩ := h; exact ⟨c, hc, hi⟩
    | netError => exact h
    | statusOverride code => exact h.2
    | enqueue dest items => cases h
    | progress loaded => cases h
    | offer size accepted => cases h
    | togglePause => cases h
    | clearQ => cases h
    | removeItem idx item => cases h
  obtain ⟨c, hc, hci⟩ := hex
  simp [uploadingItem, hc, hci]

/-- Events the amended FIFO claim permits in the given state: a
transport completion must not be an abort (effective status 0 while a
transfer is live), and an accepted resume offer is only taken while the
push subscription still belongs to the in-flight request — a stale
closure's accept advances the queue out of order. -/
def evOk (m : Machine) : Ev → Bool
  | Ev.loadend s =>
    match m.transfer with
    | none => true
    | some c => decide (effStatus c s ≠ 0)
  | Ev.offer _ accepted =>
    !accepted ||
      match m.handler with
      | none => true
      | some hd => hd.isCurrent
  | _ => true

/-- A trace the amended FIFO claim quantifies over: every event is
allowed for `B` and permitted in the state where it fires. -/
def safeTrace (B : ToUpload) (m : Machine) : List Ev → Bool
  | [] => true
  | e :: r => allowedEv B e && evOk m e && safeTrace B (step m e).1 r

theorem head?_append_left {α : Type} (x y : List α) (hx : x ≠ []) :
    (x ++ y).head? = x.head? := by
  cases x with
  | nil => exact absurd rfl hx
  | cons a r => rfl

theorem aBefore_not_head (A B : ToUpload) (l : List ToUpload)
    (h : aBefore A B l = true) : l.head? ≠ some B := by
  cases l with
  | nil => simp
  | cons x r =>
    intro hx
    simp only [List.head?_cons, Option.some_inj] at hx
    rw [aBefore, if_pos hx] at h
    cases h

theorem aBefore_pop (A B : ToUpload) (x : List ToUpload) (c : ToUpload)
    (h : aBefore A B (c :: x) = true) (hne : c ≠ A) : aBefore A B x = true := by
  rw [aBefore] at h
  by_cases hb : c = B
  · rw [if_pos hb] at h; cases h
  · rw [if_neg hb, if_neg hne] at h
    exact h

theorem aBefore_prepend (A B : ToUpload) (news : List ToUpload) (hB : B ∉ news) :
    ∀ y, aBefore A B y = true → aBefore A B (news ++ y) = true := by
  induction news with
  | nil => intro y h; exact h
  | cons n ns ih =>
    intro y h
    have hnB : n ≠ B := fun hc => hB (hc ▸ List.mem_cons_self _ _)
    rw [List.cons_append, aBefore, if_neg hnB]
    by_cases hnA : n = A
    · rw [if_pos hnA]
    · rw [if_neg hnA]
      exact ih (fun hc => hB (List.mem_cons_of_mem _ hc)) y h

theorem aBefore_insert (A B : ToUpload) (news : List ToUpload) (hB : B ∉ news) :
    ∀ x y, aBefore A B (x ++ y) = true → aBefore A B (x ++ news ++ y) = true := by
  intro x
  induction x with
  | nil =>
    intro y h
    exact aBefore_prepend A B news hB y h
  | cons c x' ih =>
    intro y h
    rw [List.cons_append] at h
    rw [List.cons_append, List.cons_append]
    rw [aBefore] at h ⊢
    by_cases hb : c = B
    · rw [if_pos hb] at h; cases h
    · rw [if_neg hb] at h ⊢
      by_cases ha : c = A
      · rw [if_pos ha]
      · rw [if_neg ha] at h ⊢
        exact ih y h

theorem addToQs_flatten (dest : String) (es : List ToUpload) :
    ∀ qs, ∃ x y news, flattenQs qs = x ++ y ∧
      flattenQs (addToQs qs dest es) = x ++ news ++ y ∧
      (∀ b ∈ news, b ∈ es) ∧
      (qs ≠ [] → entriesNonEmpty qs → x ≠ []) := by
  intro qs
  induction qs with
  | nil =>
    refine ⟨[], [], es, rfl, by simp [addToQs, flattenQs], fun b hb => hb, fun h _ => absurd rfl h⟩
  | cons q rest ih =>
    by_cases hd : q.dest = dest
    · refine ⟨q.entries, flattenQs rest,
        es.filter (fun x => path x.file ∉ q.entries.map (fun y => path y.file)),
        rfl, ?_, ?_, ?_⟩
      · simp [addToQs, hd, flattenQs, List.append_assoc]
      · intro b hb
        exact List.mem_of_mem_filter hb
      · intro _ hne
        exact hne q (List.mem_cons_self _ _)
    · obtain ⟨x, y, news, h1, h2, h3, -⟩ := ih
      refine ⟨q.entries ++ x, y, news, ?_, ?_, h3, ?_⟩
      · rw [flattenQs, h1, List.append_assoc]
      · rw [show addToQs (q :: rest) dest es = q :: addToQs rest dest es from by
          simp [addToQs, hd]]
        rw [flattenQs, h2]
        simp [List.append_assoc]
      · intro _ hne
        intro hcontra
        have h0 : q.entries = [] := (List.append_eq_nil.mp hcontra).1
        exact hne q (List.mem_cons_self _ _) h0

theorem flatten_advanceQ (qs : List QueueEntry) (h : entriesNonEmpty qs) :
    flattenQs (advanceQ qs) = (flattenQs qs).tail := by
  cases qs with
  | nil => rfl
  | cons q rest =>
    have hq : q.entries ≠ [] := h q (List.mem_cons_self _ _)
    cases he : q.entries with
    | nil => exact absurd he hq
    | cons e es =>
      simp only [advanceQ, flattenQs, he]
      split
      · rename_i hes
        simp only [List.tail_cons] at hes
        simp [hes, flattenQs]
      · rename_i hes
        simp only [List.tail_cons] at hes
        simp [flattenQs]

theorem headInv_sched (m : Machine) (h : headInv m) : headInv (sched m) := by
  rcases sched_cases m with hs | hs | ⟨e, d, r, es, hqs, -, -, hs⟩
  · rwa [hs]
  · intro c hc
    rw [hs] at hc
    rw [hs]
    show (flattenQs m.qs).head? = some c.item
    exact h c hc
  · intro c hc
    rw [hs] at hc
    simp [startUpload] at hc
    rw [hs]
    show (flattenQs m.qs).head? = some c.item
    rw [hqs, ← hc]
    simp [flattenQs]

theorem handlerCur_of_none (m : Machine) (ht : m.transfer = none) :
    handlerCur m := by
  intro hd c hh hcu hc
  rw [ht] at hc
  cases hc

theorem handlerCur_startUpload (m : Machine) (item : ToUpload) (dest : String)
    (r : Nat) : handlerCur (startUpload m item dest r) := by
  intro hd c hh hcu hc
  have hc' : (⟨item, dest, r, 0, 0⟩ : TransferCtx) = c := by
    have : some (⟨item, dest, r, 0, 0⟩ : TransferCtx) = some c := hc
    injection this
  cases hmh : m.handler with
  | none =>
    have hh' : (startUpload m item dest r).handler = some ⟨item, dest, true⟩ := by
      simp [startUpload, hmh]
    rw [hh'] at hh
    injection hh with hh
    rw [← hh, ← hc']
  | some h0 =>
    have hh' : (startUpload m item dest r).handler =
        some { h0 with isCurrent := false } := by
      simp [startUpload, hmh]
    rw [hh'] at hh
    injection hh with hh
    rw [← hh] at hcu
    simp at hcu

theorem handlerCur_sched (m : Machine) (h : handlerCur m) :
    handlerCur (sched m) := by
  rcases sched_cases m with hs | hs | ⟨e, d, r, es, -, -, -, hs⟩
  · rwa [hs]
  · intro hd c hh hcu hc
    rw [hs] at hh
    cases hh
  · rw [hs]
    exact handlerCur_startUpload m e d 0

theorem handlerCur_step (m : Machine) (ev : Ev) (h : handlerCur m) :
    handlerCur (step m ev).1 := by
  cases ev with
  | enqueue dest items =>
    exact handlerCur_sched _ h
  | progress loaded =>
    cases hc : m.transfer with
    | none => simpa [step, hc] using h
    | some c =>
      have hstep : (step m (Ev.progress loaded)).1 = sched (onProgress m loaded) := by
        simp [step, hc]
      rw [hstep]
      apply handlerCur_sched
      intro hd c' hh hcu hc'
      have hoh : (onProgress m loaded).handler = m.handler := by
        simp [onProgress, hc]
      have hot : (onProgress m loaded).transfer =
          some { c with lastProgress := loaded } := by
        simp [onProgress, hc]
      rw [hot] at hc'
      injection hc' with hc'
      rw [hoh] at hh
      have := h hd c hh hcu hc
      rw [← hc']
      exact this
  | loadend s =>
    cases hc : m.transfer with
    | none => simpa [step, hc] using h
    | some c =>
      have hstep : (step m (Ev.loadend s)).1 = sched (finishRequest m s false).1 := by
        simp [step, hc]
      rw [hstep]
      exact handlerCur_sched _ (handlerCur_of_none _ (finishRequest_transfer m s))
  | netError =>
    cases hc : m.transfer with
    | none => simpa [step, hc] using h
    | some c =>
      have hstep : (step m Ev.netError).1 =
          sched (finishRequest (error m).1 0 false).1 := by
        simp [step, hc]
      rw [hstep]
      exact handlerCur_sched _ (handlerCur_of_none _ (finishRequest_transfer _ 0))
  | offer size accepted =>
    cases hc : m.transfer with
    | none => simpa [step, hc] using h
    | some c =>
      cases hh : m.handler with
      | none => simpa [step, hc, hh] using h
      | some hd =>
        by_cases hig : size = 0 ∨ hd.item.file.size < size
        · have hstep : (step m (Ev.offer size accepted)).1 = m := by
            simp [step, hc, hh, hig]
          rwa [hstep]
        · cases accepted with
          | false =>
            have hstep : (step m (Ev.offer size false)).1 = m := by
              simp [step, hc, hh, hig]
            rwa [hstep]
          | true =>
            have hstep : (step m (Ev.offer size true)).1 =
                sched (startUpload (finishRequest m 0 hd.isCurrent).1
                  hd.item hd.dest size) := by
              simp [step, hc, hh, hig]
            rw [hstep]
            exact handlerCur_sched _ (handlerCur_startUpload _ _ _ _)
  | statusOverride code =>
    cases hc : m.transfer with
    | none => simpa [step, hc] using h
    | some c =>
      by_cases h4 : 400 ≤ code
      · have hstep : (step m (Ev.statusOverride code)).1 =
            sched (finishRequest
              { m with transfer := some { c with overrideStatus := code } } 0 false).1 := by
          simp [step, hc, h4]
        rw [hstep]
        exact handlerCur_sched _ (handlerCur_of_none _ (finishRequest_transfer _ 0))
      · have hstep : (step m (Ev.statusOverride code)).1 =
            { m with transfer := some { c with overrideStatus := code } } := by
          simp [step, hc, h4]
        rw [hstep]
        intro hd c' hh hcu hc'
        have : some ({ c with overrideStatus := code } : TransferCtx) = some c' := hc'
        injection this with h'
        have := h hd c hh hcu hc
        rw [← h']
        exact this
  | togglePause =>
    exact handlerCur_sched _ h
  | clearQ =>
    have hstep : (step m Ev.clearQ).1 =
        sched (finishRequest { m with qs := [] } 0 false).1 := by
      simp [step]
    rw [hstep]
    exact handlerCur_sched _ (handlerCur_of_none _ (finishRequest_transfer _ 0))
  | removeItem idx item =>
    cases hc : m.transfer with
    | none =>
      have hstep : (step m (Ev.removeItem idx item)).1 =
          sched { m with qs := removeAt m.qs idx item } := by
        simp [step, hc]
      rw [hstep]
      exact handlerCur_sched _ h
    | some c =>
      by_cases hi : c.item = item
      · have hstep : (step m (Ev.removeItem idx item)).1 =
            sched (finishRequest m 0 false).1 := by
          simp [step, hc, hi]
        rw [hstep]
        exact handlerCur_sched _ (handlerCur_of_none _ (finishRequest_transfer _ 0))
      · have hstep : (step m (Ev.removeItem idx item)).1 =
            sched { m with qs := removeAt m.qs idx item } := by
          simp [step, hc, hi]
        rw [hstep]
        exact handlerCur_sched _ h

theorem finishRequest_false_qs (m : Machine) (c : TransferCtx) (s : Nat)
    (hc : m.transfer = some c) :
    (finishRequest m s false).1.qs = advanceQ m.qs := by
  simp only [finishRequest, hc]
  rw [if_neg (by simp : ¬ (false = true))]
  rw [next_qs]
  split
  · split
    · rfl
    · rfl
  · rfl

theorem finishRequest_true_preserve (m : Machine) (s : Nat) :
    (finishRequest m s true).1.qs = m.qs ∧
    (finishRequest m s true).1.transfer = m.transfer := by
  cases hc : m.transfer with
  | none =>
    have hfr : finishRequest m s true = (m, false) := by simp [finishRequest, hc]
    rw [hfr]
    exact ⟨rfl, hc.symm ▸ rfl⟩
  | some c =>
    simp only [finishRequest, hc]
    rw [if_pos trivial]
    constructor
    · split
      · split
        · rfl
        · rfl
      · rfl
    · split
      · split
        · exact hc
        · exact hc
      · exact hc

theorem fifo_pop (A B : ToUpload) (m M : Machine) (hinv : FifoInv A B m)
    (c : TransferCtx) (hc : m.transfer = some c) (hcA : c.item ≠ A)
    (hqs : M.qs = advanceQ m.qs) (htr : M.transfer = none) :
    FifoInv A B (sched M) := by
  obtain ⟨hne, hhead, -, hab⟩ := hinv
  have hflat : flattenQs M.qs = (flattenQs m.qs).tail := by
    rw [hqs]
    exact flatten_advanceQ m.qs hne
  have hh := hhead c hc
  obtain ⟨tl, htl⟩ : ∃ tl, flattenQs m.qs = c.item :: tl := by
    cases hfq : flattenQs m.qs with
    | nil => rw [hfq] at hh; cases hh
    | cons x r =>
      rw [hfq] at hh
      simp only [List.head?_cons, Option.some_inj] at hh
      exact ⟨r, by rw [hh]⟩
  refine ⟨?_, headInv_sched M ?_, handlerCur_sched M (handlerCur_of_none M htr), ?_⟩
  · rw [sched_qs, hqs]
    exact entriesNonEmpty_advanceQ m.qs hne
  · intro c' hc'
    rw [htr] at hc'
    cases hc'
  · rw [sched_qs, hflat, htl, List.tail_cons]
    rw [htl] at hab
    exact aBefore_pop A B tl c.item hab hcA

theorem fifo_step (A B : ToUpload) (m : Machine) (ev : Ev)
    (hinv : FifoInv A B m) (hev : allowedEv B ev = true)
    (hok : evOk m ev = true)
    (hnc : ¬ completesA A m ev) : FifoInv A B (step m ev).1 := by
  obtain ⟨hne, hhead, hcur, hab⟩ := hinv
  have hcur' : handlerCur (step m ev).1 :=
    handlerCur_step m ev hcur
  cases ev with
  | enqueue dest items =>
    have hBni : B ∉ items := by simpa [allowedEv] using hev
    rcases enqueue_qs_cases m.accept m.qs dest items with hq | ⟨es, hesne, hsub, hq⟩
    · refine ⟨entriesNonEmpty_step m _ hne, ?_, hcur', ?_⟩
      · show headInv (sched { m with qs := (enqueue m.accept m.qs dest items).1 })
        apply headInv_sched
        intro c hc
        show (flattenQs (enqueue m.accept m.qs dest items).1).head? = some c.item
        rw [hq]
        exact hhead c hc
      · show aBefore A B (flattenQs
          (sched { m with qs := (enqueue m.accept m.qs dest items).1 }).qs) = true
        rw [sched_qs]
        show aBefore A B (flattenQs (enqueue m.accept m.qs dest items).1) = true
        rw [hq]
        exact hab
    · obtain ⟨x, y, news, hxy, hflat, hmemnews, hxne⟩ := addToQs_flatten dest es m.qs
      have hBnews : B ∉ news := fun hb => hBni (hsub B (hmemnews B hb))
      refine ⟨entriesNonEmpty_step m _ hne, ?_, hcur', ?_⟩
      · show headInv (sched { m with qs := (enqueue m.accept m.qs dest items).1 })
        apply headInv_sched
        intro c hc
        have hh := hhead c hc
        show (flattenQs (enqueue m.accept m.qs dest items).1).head? = some c.item
        rw [hq, hflat]
        have hqs_ne : m.qs ≠ [] := by
          intro h0
          rw [h0] at hh
          cases hh
        have hx : x ≠ [] := hxne hqs_ne hne
        have hxn : x ++ news ≠ [] := by
          intro h0
          exact hx (List.append_eq_nil.mp h0).1
        rw [head?_append_left (x ++ news) y hxn, head?_append_left x news hx]
        rw [hxy, head?_append_left x y hx] at hh
        exact hh
      · show aBefore A B (flattenQs
          (sched { m with qs := (enqueue m.accept m.qs dest items).1 }).qs) = true
        rw [sched_qs]
        show aBefore A B (flattenQs (enqueue m.accept m.qs dest items).1) = true
        rw [hq, hflat]
        apply aBefore_insert A B news hBnews x y
        rw [← hxy]
        exact hab
  | progress loaded =>
    cases hc : m.transfer with
    | none =>
      have hstep : (step m (Ev.progress loaded)).1 = m := by simp [step, hc]
      rw [hstep]
      exact ⟨hne, hhead, hstep ▸ hcur', hab⟩
    | some c =>
      have hstep : (step m (Ev.progress loaded)).1 = sched (onProgress m loaded) := by
        simp [step, hc]
      have hoq : (onProgress m loaded).qs = m.qs := by simp [onProgress, hc]
      have hot : (onProgress m loaded).transfer =
          some { c with lastProgress := loaded } := by simp [onProgress, hc]
      rw [hstep]
      refine ⟨?_, headInv_sched _ ?_, hstep ▸ hcur', ?_⟩
      · rw [sched_qs, hoq]
        exact hne
      · intro c' hc'
        rw [hot] at hc'
        injection hc' with hc'
        rw [hoq, ← hc']
        exact hhead c hc
      · rw [sched_qs, hoq]
        exact hab
  | loadend s =>
    cases hc : m.transfer with
    | none =>
      have hstep : (step m (Ev.loadend s)).1 = m := by simp [step, hc]
      rw [hstep]
      exact ⟨hne, hhead, hstep ▸ hcur', hab⟩
    | some c =>
      have heff : effStatus c s ≠ 0 := by
        simpa [evOk, hc] using hok
      have hcA : c.item ≠ A := fun h => hnc ⟨c, hc, h, heff⟩
      have hstep : (step m (Ev.loadend s)).1 = sched (finishRequest m s false).1 := by
        simp [step, hc]
      rw [hstep]
      exact fifo_pop A B m _ ⟨hne, hhead, hcur, hab⟩ c hc hcA
        (finishRequest_false_qs m c s hc) (finishRequest_transfer m s)
  | netError =>
    cases hc : m.transfer with
    | none =>
      have hstep : (step m Ev.netError).1 = m := by simp [step, hc]
      rw [hstep]
      exact ⟨hne, hhead, hstep ▸ hcur', hab⟩
    | some c =>
      have hcA : c.item ≠ A := fun h => hnc ⟨c, hc, h⟩
      have hstep : (step m Ev.netError).1 =
          sched (finishRequest (error m).1 0 false).1 := by
        simp [step, hc]
      rw [hstep]
      have hec : (error m).1.transfer = some c := hc
      exact fifo_pop A B m _ ⟨hne, hhead, hcur, hab⟩ c hc hcA
        (finishRequest_false_qs (error m).1 c 0 hec) (finishRequest_transfer (error m).1 0)
  | offer size accepted =>
    cases hc : m.transfer with
    | none =>
      have hstep : (step m (Ev.offer size accepted)).1 = m := by simp [step, hc]
      rw [hstep]
      exact ⟨hne, hhead, hstep ▸ hcur', hab⟩
    | some c =>
      cases hh : m.handler with
      | none =>
        have hstep : (step m (Ev.offer size accepted)).1 = m := by
          simp [step, hc, hh]
        rw [hstep]
        exact ⟨hne, hhead, hstep ▸ hcur', hab⟩
      | some hd =>
        by_cases hig : size = 0 ∨ hd.item.file.size < size
        · have hstep : (step m (Ev.offer size accepted)).1 = m := by
            simp [step, hc, hh, hig]
          rw [hstep]
          exact ⟨hne, hhead, hstep ▸ hcur', hab⟩
        · cases accepted with
          | false =>
            have hstep : (step m (Ev.offer size false)).1 = m := by
              simp [step, hc, hh, hig]
            rw [hstep]
            exact ⟨hne, hhead, hstep ▸ hcur', hab⟩
          | true =>
            have hcurT : hd.isCurrent = true := by
              simpa [evOk, hh] using hok
            have hitem : hd.item = c.item := hcur hd c hh hcurT hc
            have hstep : (step m (Ev.offer size true)).1 =
                sched (startUpload (finishRequest m 0 true).1 hd.item hd.dest size) := by
              simp [step, hc, hh, hig, hcurT]
            obtain ⟨hpq, -⟩ := finishRequest_true_preserve m 0
            have hSq : (startUpload (finishRequest m 0 true).1 hd.item hd.dest size).qs
                = m.qs := hpq
            rw [hstep]
            refine ⟨?_, headInv_sched _ ?_, hstep ▸ hcur', ?_⟩
            · rw [sched_qs, hSq]
              exact hne
            · intro c' hc'
              have : some (⟨hd.item, hd.dest, size, 0, 0⟩ : TransferCtx) = some c' := hc'
              injection this with h'
              rw [hSq, ← h']
              show (flattenQs m.qs).head? = some hd.item
              rw [hitem]
              exact hhead c hc
            · rw [sched_qs, hSq]
              exact hab
  | statusOverride code =>
    cases hc : m.transfer with
    | none =>
      have hstep : (step m (Ev.statusOverride code)).1 = m := by simp [step, hc]
      rw [hstep]
      exact ⟨hne, hhead, hstep ▸ hcur', hab⟩
    | some c =>
      by_cases h4 : 400 ≤ code
      · have hcA : c.item ≠ A := fun h => hnc ⟨h4, c, hc, h⟩
        have hstep : (step m (Ev.statusOverride code)).1 =
            sched (finishRequest
              { m with transfer := some { c with overrideStatus := code } } 0 false).1 := by
          simp [step, hc, h4]
        rw [hstep]
        refine fifo_pop A B m _ ⟨hne, hhead, hcur, hab⟩ c hc hcA ?_ (finishRequest_transfer _ 0)
        exact finishRequest_false_qs _ { c with overrideStatus := code } 0 rfl
      · have hstep : (step m (Ev.statusOverride code)).1 =
            { m with transfer := some { c with overrideStatus := code } } := by
          simp [step, hc, h4]
        rw [hstep]
        refine ⟨hne, ?_, hstep ▸ hcur', hab⟩
        intro c' hc'
        have : some ({ c with overrideStatus := code } : TransferCtx) = some c' := hc'
        injection this with h'
        show (flattenQs m.qs).head? = some c'.item
        rw [← h']
        exact hhead c hc
  | togglePause =>
    refine ⟨entriesNonEmpty_step m _ hne, ?_, hcur', ?_⟩
    · show headInv (sched { m with paused := !m.paused })
      apply headInv_sched
      intro c hc
      exact hhead c hc
    · show aBefore A B (flattenQs (sched { m with paused := !m.paused }).qs) = true
      rw [sched_qs]
      exact hab
  | clearQ => exact absurd hev (by simp [allowedEv])
  | removeItem idx item => exact absurd hev (by simp [allowedEv])

/-- C4 (amended).  FIFO order under safe traces: start from any state
in which every queue entry is non-empty, the active transfer (if any)
is the first pending item, and a subscription that still owns the
in-flight request captured the active item; let `A` precede every
occurrence of `B` in queue order.  Along any trace that performs no
user cancellation, never re-enqueues `B`, never aborts a live transfer
(no completion with effective status 0), and accepts resume offers only
while the push subscription belongs to the in-flight request, if `B`
ever becomes the active transfer then some earlier event of the trace
gave `A`'s transfer a terminal state — success, conflict skip, or error
— while `A` was active: the watcher only ever starts the first entry of
the first queue entry, and completions remove exactly that front item. -/
theorem fifo_b_starts_only_after_a_terminal
    (A B : ToUpload) (m : Machine) (t : List Ev)
    (hinv : FifoInv A B m)
    (hsafe : safeTrace B m t = true)
    (hB : uploadingItem (run m t) = some B) :
    ∃ t1 e t2, t = t1 ++ e :: t2 ∧ completesA A (run m t1) e := by
  induction t generalizing m with
  | nil =>
    exfalso
    obtain ⟨hne, hhead, -, hab⟩ := hinv
    obtain ⟨c, hc, hci⟩ : ∃ c, m.transfer = some c ∧ c.item = B := by
      cases hmc : m.transfer with
      | none =>
        rw [show run m [] = m from rfl, uploadingItem, hmc] at hB
        cases hB
      | some c =>
        rw [show run m [] = m from rfl, uploadingItem, hmc] at hB
        simp at hB
        exact ⟨c, rfl, hB⟩
    have hh := hhead c hc
    rw [hci] at hh
    exact aBefore_not_head A B _ hab hh
  | cons e t' ih =>
    have hsa : allowedEv B e = true ∧ evOk m e = true ∧
        safeTrace B (step m e).1 t' = true := by
      simpa [safeTrace, Bool.and_eq_true, and_assoc] using hsafe
    by_cases hce : completesA A m e
    · exact ⟨[], e, t', rfl, hce⟩
    · have hinv' := fifo_step A B m e hinv hsa.1 hsa.2.1 hce
      obtain ⟨t1, e', t2, ht, hcomp⟩ := ih (step m e).1 hinv' hsa.2.2 hB
      exact ⟨e :: t1, e', t2, by rw [ht]; rfl, hcomp⟩

/-- A state with `itemA` then `itemB` pending for one destination and
nothing active yet. -/
def mFifo : Machine := { initM none with qs := [⟨"/d", [itemA, itemB]⟩] }

/-- Witness for C4's amended theorem: with `itemA` ahead of `itemB`,
after un-pausing and one successful completion `itemB` is uploading,
and the theorem exhibits the completion of `itemA` inside the trace. -/
theorem fifo_b_starts_only_after_a_terminal_witness :
    ∃ t1 e t2, ([Ev.togglePause, Ev.togglePause, Ev.loadend 200] : List Ev) =
      t1 ++ e :: t2 ∧ completesA itemA (run mFifo t1) e :=
  fifo_b_starts_only_after_a_terminal itemA itemB mFifo
    [Ev.togglePause, Ev.togglePause, Ev.loadend 200]
    (by
      unfold FifoInv
      refine ⟨?_, ?_, ?_, ?_⟩
      · show ∀ q ∈ mFifo.qs, q.entries ≠ []
        decide
      · intro c h
        simp [mFifo, initM] at h
      · intro hd c hh
        simp [mFifo, initM] at hh
      · decide)
    (by decide) (by decide)

/-- Third sample file, enqueued behind `fileA` and `fileB`. -/
def fileC : FileRec := ⟨"c.txt", "text/plain", 30, ""⟩

/-- Third sample pending item. -/
def itemC : ToUpload := ⟨fileC, none⟩

/-- A reachable state with `itemA` uploading and `itemB`, `itemC`
pending behind it, whose push handler belongs to the in-flight
transfer. -/
def mFifo3 : Machine := run (initM none) [Ev.enqueue "/d" [itemA, itemB, itemC]]

/-- The stale-resume trace: a first accepted offer makes the handler's
closure stale, a second accepted offer then fires `next()` out of turn,
and a final successful completion of `itemA` starts `itemC`. -/
def tFifo : List Ev := [Ev.offer 4 true, Ev.offer 6 true, Ev.loadend 200]

/-- Counterexample to C4 as frozen, with `A := itemB` and `B := itemC`.
Starting from a reachable state with `itemA` uploading and `itemB`
before `itemC` in queue order, a trace with no cancellation and no
re-enqueue of `itemC` makes `itemC` the active transfer although
`itemB` never had a terminal state — indeed `itemB` is never even the
active item at any point of the trace, because a second accepted resume
offer reaches the stale push-handler closure of the already-replaced
first request, whose dead `resuming` flag cannot suppress `next()`, so
the queue advances past `itemB` while `itemA` is still uploading. -/
theorem fifo_counterexample :
    aBefore itemB itemC (flattenQs mFifo3.qs) = true ∧
    (∀ e ∈ tFifo, allowedEv itemC e = true) ∧
    uploadingItem (run mFifo3 tFifo) = some itemC ∧
    (run mFifo3 tFifo).done = 1 ∧ (run mFifo3 tFifo).errors = 0 ∧
    (∀ k < 4, ∀ e, ¬ completesA itemB (run mFifo3 (tFifo.take k)) e) := by
  refine ⟨by decide, by decide, by decide, by decide, by decide, ?_⟩
  intro k hk e hce
  have ha := completesA_active itemB (run mFifo3 (tFifo.take k)) e hce
  have hk3 : k = 0 ∨ k = 1 ∨ k = 2 ∨ k = 3 := by omega
  rcases hk3 with rfl | rfl | rfl | rfl <;> revert ha <;> decide
